import Mathlib

/-! Verification of the ultimate-mindmap core (src/src/core/renderer.ts) against
its natural-language specification.

The development shallowly embeds the `MarkdownParser` tree mutators, the
markdown `parse`/`serialize` pair, and the geometric/loop fragments of
`MindMapRenderer` that the claims refer to.

Modelling conventions:
* A `MindMapNode` becomes `Node` below: scalar fields live in `NodeCore`,
  the ordered `children` array becomes the mutually inductive `Forest`
  (a cons-list of nodes), so every source function that walks arrays of
  nodes becomes a structural recursion that the kernel can evaluate.
* Strings are modelled as `List Char` (`Str` below): the TS code only
  splits on `'\n'`, trims, concatenates and compares, and all of that is
  faithful on the character-list level.
* Node identifiers are opaque unique tokens in the source (`generateId`
  produces `node_<timestamp>_<random>`); they are modelled as `Nat`.
  Fresh-id generation is modelled by a counter.
* The TS mutators operate on the forest in place through references.
  The embedding threads the forest value explicitly; the one place where
  reference aliasing is observable (moving a node into its own detached
  subtree in `moveNode`) is modelled explicitly and commented at the
  definition.
* DOM pixel geometry (`getBoundingClientRect`, float arithmetic) is
  modelled over `ℚ`.
-/

/-- Character strings, modelled as lists of characters. -/
abbrev Str := List Char

/-- Scalar fields of a `MindMapNode` (src/types: id, title, description,
level, collapsed, parentId).  The `children` array lives in `Forest`. -/
structure NodeCore where
  id : Nat
  title : Str
  description : Option Str
  level : Nat
  collapsed : Bool
  parentId : Option Nat
deriving DecidableEq

mutual
/-- A `MindMapNode`: scalar core plus the ordered `children` array. -/
inductive Node : Type where
  | mk (core : NodeCore) (children : Forest)

/-- An ordered array of `MindMapNode`s (the forest, or a `children` array). -/
inductive Forest : Type where
  | nil
  | cons (n : Node) (rest : Forest)
end

namespace Node

/-- Scalar fields of a node. -/
def core : Node → NodeCore
  | .mk c _ => c

/-- The `children` array of a node. -/
def children : Node → Forest
  | .mk _ cs => cs

/-- The `id` field. -/
def id (n : Node) : Nat := n.core.id

/-- The `title` field. -/
def title (n : Node) : Str := n.core.title

/-- The `description` field. -/
def description (n : Node) : Option Str := n.core.description

/-- The `level` field. -/
def level (n : Node) : Nat := n.core.level

/-- The `parentId` field. -/
def parentId (n : Node) : Option Nat := n.core.parentId

end Node

namespace Forest

/-- Append two forests (models `Array.prototype.push`/`splice` tails). -/
def append : Forest → Forest → Forest
  | .nil, g => g
  | .cons n rest, g => .cons n (append rest g)

/-- The ids of the elements of the forest, in preorder (a node's id, then
its subtree's ids, then its later siblings').  Derived data is kept as a
plain `List Nat` so that `Nodup`/`Perm` reasoning applies. -/
def ids : Forest → List Nat
  | .nil => []
  | .cons (.mk c cs) rest => c.id :: (ids cs ++ ids rest)

/-- The ids of the elements of the forest at the top level only
(models `array.map(n => n.id)` on one `children` array). -/
def topIds : Forest → List Nat
  | .nil => []
  | .cons n rest => n.id :: topIds rest

/-- Preorder list of `(level, title)` pairs of the forest. -/
def pairs : Forest → List (Nat × Str)
  | .nil => []
  | .cons (.mk c cs) rest => (c.level, c.title) :: (pairs cs ++ pairs rest)

end Forest

/-- `MarkdownParser.findNodeById`: depth-first search, first match wins
(check the node itself, then its children, then its later siblings). -/
def findNodeById (f : Forest) (tid : Nat) : Option Node :=
  match f with
  | .nil => none
  | .cons (.mk c cs) rest =>
    if c.id = tid then some (.mk c cs)
    else
      match findNodeById cs tid with
      | some m => some m
      | none => findNodeById rest tid

/-- `MarkdownParser.getParentChain`: walks from the top level towards the
node with id `tid`, `unshift`-ing (prepending) each ancestor as it
descends.  Because the traversal visits ancestors shallow-to-deep and
each is prepended, the final chain lists the immediate parent first and
the shallowest ancestor (a root) last. -/
def getParentChain (f : Forest) (tid : Nat) : List Node :=
  match f with
  | .nil => []
  | .cons (.mk c cs) rest =>
    if c.id = tid then []
    else if (findNodeById cs tid).isSome then getParentChain cs tid ++ [Node.mk c cs]
    else getParentChain rest tid

/-- Structural ancestor path to the first preorder occurrence of `tid`:
the ancestors ordered from the shallowest (a root) down to the immediate
parent, excluding the node itself — the order the spec describes for
`parentChain`.  `none` when `tid` does not occur. -/
def ancestorPathTo (f : Forest) (tid : Nat) : Option (List Node) :=
  match f with
  | .nil => none
  | .cons (.mk c cs) rest =>
    if c.id = tid then some []
    else
      match ancestorPathTo cs tid with
      | some p => some (Node.mk c cs :: p)
      | none => ancestorPathTo rest tid

/-- `MarkdownParser.addSiblingNode`'s inner recursion `addSibling`:
carries the id of the node owning the current `children` array
(`null`/`none` at the top level); on finding `targetId` at index `i`,
splices a fresh node at `i + 1` with the target's `level` and the carried
`parentId`, and `description: ''`. -/
def addSiblingIn (pid : Option Nat) (tid : Nat) (title : Str) (newId : Nat) :
    Forest → Option (Forest × Node)
  | .nil => none
  | .cons (.mk c cs) rest =>
    if c.id = tid then
      let newNode : Node := .mk ⟨newId, title, some [], c.level, false, pid⟩ .nil
      some (.cons (.mk c cs) (.cons newNode rest), newNode)
    else
      match addSiblingIn (some c.id) tid title newId cs with
      | some (cs', created) => some (.cons (.mk c cs') rest, created)
      | none =>
        match addSiblingIn pid tid title newId rest with
        | some (rest', created) => some (.cons (.mk c cs) rest', created)
        | none => none

/-- `MarkdownParser.addSiblingNode`: runs the recursion from the top level
with `parentId = null`; when the target is absent the forest is returned
unchanged together with `none`. -/
def addSiblingNode (f : Forest) (tid : Nat) (title : Str) (newId : Nat) :
    Forest × Option Node :=
  match addSiblingIn none tid title newId f with
  | some (f', created) => (f', some created)
  | none => (f, none)

/-- Inner walk of `MarkdownParser.addChildNode`: pushes a fresh node onto
the `children` of the first preorder occurrence of `tid`, with
`level = target.level + 1`, `parentId = target.id` and `description: ''`.
The source first runs `findNodeById` and then pushes through the
returned reference; the embedding fuses the two passes into one walk to
the same first preorder occurrence. -/
def addChildIn (tid : Nat) (title : Str) (newId : Nat) :
    Forest → Option (Forest × Node)
  | .nil => none
  | .cons (.mk c cs) rest =>
    if c.id = tid then
      let newNode : Node := .mk ⟨newId, title, some [], c.level + 1, false, some c.id⟩ .nil
      some (.cons (.mk c (cs.append (.cons newNode .nil))) rest, newNode)
    else
      match addChildIn tid title newId cs with
      | some (cs', created) => some (.cons (.mk c cs') rest, created)
      | none =>
        match addChildIn tid title newId rest with
        | some (rest', created) => some (.cons (.mk c cs) rest', created)
        | none => none

/-- `MarkdownParser.addChildNode`: `null` and an unchanged forest when the
target is absent. -/
def addChildNode (f : Forest) (tid : Nat) (title : Str) (newId : Nat) :
    Forest × Option Node :=
  match addChildIn tid title newId f with
  | some (f', created) => (f', some created)
  | none => (f, none)

/-- `MarkdownParser.addRootNode`: appends a fresh node at level 1 with
`parentId = null` to the forest; always succeeds. -/
def addRootNode (f : Forest) (title : Str) (newId : Nat) : Forest × Node :=
  let newNode : Node := .mk ⟨newId, title, some [], 1, false, none⟩ .nil
  (f.append (.cons newNode .nil), newNode)

/-- `MarkdownParser.deleteNode`: removes the first preorder node with the
given id together with its whole subtree; returns whether anything was
removed. -/
def deleteNode (f : Forest) (tid : Nat) : Forest × Bool :=
  match f with
  | .nil => (.nil, false)
  | .cons (.mk c cs) rest =>
    if c.id = tid then (rest, true)
    else
      match deleteNode cs tid with
      | (cs', true) => (.cons (.mk c cs') rest, true)
      | (_, false) =>
        match deleteNode rest tid with
        | (rest', b) => (.cons (.mk c cs) rest', b)

/-- `MarkdownParser.updateNodeLevels` on one `children` array: set every
top-level node of the array to `lvl` and recurse with `lvl + 1`. -/
def setLevels (lvl : Nat) : Forest → Forest
  | .nil => .nil
  | .cons (.mk c cs) rest => .cons (.mk { c with level := lvl } (setLevels (lvl + 1) cs)) (setLevels lvl rest)

/-- `MarkdownParser.updateNodeLevels`: sets `node.level = lvl` and
recursively each child one deeper. -/
def updateNodeLevels (n : Node) (lvl : Nat) : Node :=
  .mk { n.core with level := lvl } (setLevels (lvl + 1) n.children)

/-- `MarkdownParser.findParentNode`: first preorder node one of whose
direct children has id `tid`. -/
def findParentNode (f : Forest) (tid : Nat) : Option Node :=
  match f with
  | .nil => none
  | .cons (.mk c cs) rest =>
    if (cs.topIds.contains tid) then some (.mk c cs)
    else
      match findParentNode cs tid with
      | some p => some p
      | none => findParentNode rest tid

/-- Move target mode (`'sibling' | 'child'`). -/
inductive MoveMode where
  | sibling
  | child
deriving DecidableEq

/-- Move position (`'before' | 'after' | 'append'`). -/
inductive MovePos where
  | before
  | after
  | append
deriving DecidableEq

/-- The removal half of `moveNode`'s
`findNodeWithParent` + `splice(sourceIndex, 1)`: detaches the first
preorder node with id `tid` from its containing array, returning the
forest without it and the detached node. -/
def extractNode (f : Forest) (tid : Nat) : Option (Forest × Node) :=
  match f with
  | .nil => none
  | .cons (.mk c cs) rest =>
    if c.id = tid then some (rest, .mk c cs)
    else
      match extractNode cs tid with
      | some (cs', src) => some (.cons (.mk c cs') rest, src)
      | none =>
        match extractNode rest tid with
        | some (rest', src) => some (.cons (.mk c cs) rest', src)
        | none => none

/-- The `mode === 'child'` half of `moveNode` after the splice:
`targetNode.children.push(source.node)`, `source.node.parentId = targetNode.id`,
`updateNodeLevels(source.node, targetNode.level + 1)`, applied at the
first preorder occurrence of `tid`. -/
def pushChildAt (f : Forest) (tid : Nat) (src : Node) : Option Forest :=
  match f with
  | .nil => none
  | .cons (.mk c cs) rest =>
    if c.id = tid then
      let moved := updateNodeLevels (.mk { src.core with parentId := some tid } src.children) (c.level + 1)
      some (.cons (.mk c (cs.append (.cons moved .nil))) rest)
    else
      match pushChildAt cs tid src with
      | some cs' => some (.cons (.mk c cs') rest)
      | none =>
        match pushChildAt rest tid src with
        | some rest' => some (.cons (.mk c cs) rest')
        | none => none

/-- The `mode === 'sibling'` splice of `moveNode`: inserts `src` into the
array containing the first preorder occurrence of `targetId`, at
`targetIndex + 1` for `'after'` and at `targetIndex` otherwise — the
source computes `insertIndex = position === 'after' ? targetIndex + 1 :
targetIndex`, so `'append'` takes the same index as `'before'`. -/
def spliceSiblingAt (f : Forest) (tid : Nat) (pos : MovePos) (src : Node) : Option Forest :=
  match f with
  | .nil => none
  | .cons (.mk c cs) rest =>
    if c.id = tid then
      if pos = .after then some (.cons (.mk c cs) (.cons src rest))
      else some (.cons src (.cons (.mk c cs) rest))
    else
      match spliceSiblingAt cs tid pos src with
      | some cs' => some (.cons (.mk c cs') rest)
      | none =>
        match spliceSiblingAt rest tid pos src with
        | some rest' => some (.cons (.mk c cs) rest')
        | none => none

/-- Models the final mutation of `moveNode`'s sibling branch
(`source.node.parentId = newParentId; this.updateNodeLevels(source.node,
newLevel)`): the source performs it through the reference to the node
just spliced in, which the embedding reaches again as the first preorder
occurrence of its id. -/
def relabelAt (f : Forest) (sid : Nat) (np : Option Nat) (nl : Nat) : Forest :=
  match f with
  | .nil => .nil
  | .cons (.mk c cs) rest =>
    if c.id = sid then
      .cons (updateNodeLevels (.mk { c with parentId := np } cs) nl) rest
    else if (findNodeById cs sid).isSome then
      .cons (.mk c (relabelAt cs sid np nl)) rest
    else
      .cons (.mk c cs) (relabelAt rest sid np nl)

/-- `MarkdownParser.moveNode`.  Faithful to the source line by line:

* `nodeId === targetId` → `false`, untouched;
* source or target not found (via `findNodeWithParent`, whose `parent`
  field is never `null` when it returns a hit) → `false`, untouched;
* the source node is spliced out of its containing array **before** any
  descendant check — the source has no cycle guard.  When `targetId`
  lies inside the moved node's own subtree, the subsequent
  `push`/`splice` lands in structure that the splice just detached from
  the forest, so the forest reachable from `nodes` is simply the forest
  without the moved subtree, and the function still returns `true`;
* `mode = 'child'`: push onto the target's children, reparent, renumber
  levels from `target.level + 1`;
* `mode = 'sibling'`: splice at `targetIndex + 1` for `'after'`, at
  `targetIndex` for `'before'` **and** `'append'`; then recompute
  `parentId`/`level` from `findParentNode` and renumber when changed.
  (`targetIndex < 0` after the splice would return `false` leaving the
  source removed; under the guards above the target is always found, so
  the embedding mirrors the code path with the same fallback.) -/
def moveNode (f : Forest) (nodeId targetId : Nat) (mode : MoveMode) (pos : MovePos) :
    Forest × Bool :=
  if nodeId = targetId then (f, false)
  else
    match extractNode f nodeId with
    | none => (f, false)
    | some (rest, src) =>
      if (findNodeById f targetId).isNone then (f, false)
      else if (findNodeById src.children targetId).isSome then
        -- aliasing: the push/splice mutates the detached subtree only
        (rest, true)
      else
        match mode with
        | .child =>
          match pushChildAt rest targetId src with
          | some f' => (f', true)
          | none => (rest, true)
        | .sibling =>
          match spliceSiblingAt rest targetId pos src with
          | none => (rest, false)
          | some inserted =>
            let newParent := findParentNode inserted targetId
            let newParentId := newParent.map Node.id
            let newLevel := match newParent with | some p => p.level + 1 | none => 1
            if src.parentId ≠ newParentId ∨ src.level ≠ newLevel then
              (relabelAt inserted src.id newParentId newLevel, true)
            else (inserted, true)

/-- A node with the given id, level, parentId and children, empty title,
no description — concrete fixture material for the claims. -/
def plainNode (i l : Nat) (p : Option Nat) (cs : Forest) : Node :=
  .mk ⟨i, [], none, l, false, p⟩ cs

/-- Fixture: one root (id 1) with a single child (id 2). -/
def pairForest : Forest :=
  .cons (plainNode 1 1 none (.cons (plainNode 2 2 (some 1) .nil) .nil)) .nil

/-- Fixture: three root nodes with ids 1, 2, 3. -/
def threeRoots : Forest :=
  .cons (plainNode 1 1 none .nil)
    (.cons (plainNode 2 1 none .nil) (.cons (plainNode 3 1 none .nil) .nil))

/-- Fixture: a three-node chain, root 1 → child 2 → grandchild 3. -/
def chainForest : Forest :=
  .cons (plainNode 1 1 none
    (.cons (plainNode 2 2 (some 1) (.cons (plainNode 3 3 (some 2) .nil) .nil)) .nil)) .nil

/-- Structural induction principle for forests giving induction
hypotheses both for the children and for the remaining siblings. -/
theorem Forest.inductionOn (P : Forest → Prop) (hnil : P .nil)
    (hcons : ∀ c cs rest, P cs → P rest → P (.cons (.mk c cs) rest)) :
    ∀ f, P f
  | .nil => hnil
  | .cons (.mk c cs) rest =>
    hcons c cs rest (Forest.inductionOn P hnil hcons cs) (Forest.inductionOn P hnil hcons rest)

/-- `findNodeById` and `ancestorPathTo` hit on exactly the same inputs. -/
theorem find_isSome_eq_path_isSome (tid : Nat) :
    ∀ f, (findNodeById f tid).isSome = (ancestorPathTo f tid).isSome := by
  intro f
  induction f using Forest.inductionOn with
  | hnil => rfl
  | hcons c cs rest ihcs ihrest =>
    simp only [findNodeById, ancestorPathTo]
    by_cases h : c.id = tid
    · simp [h]
    · simp only [if_neg h]
      cases hcs : findNodeById cs tid with
      | some m =>
        rw [hcs] at ihcs
        cases hps : ancestorPathTo cs tid with
        | some p => simp
        | none => rw [hps] at ihcs; simp at ihcs
      | none =>
        rw [hcs] at ihcs
        cases hps : ancestorPathTo cs tid with
        | some p => rw [hps] at ihcs; simp at ihcs
        | none => simpa using ihrest

/-- C1.  The claim says `move(forest, A, B, …)` with B a descendant of A is a
no-op returning `false`.  The source `moveNode` has no cycle guard: it
splices A out of the forest and then pushes it into B, which the splice
has just detached, so the call returns `true` and the forest loses A's
whole subtree.  At the failing input — forest `[1 [2]]`,
`moveNode(forest, 1, 2, child, append)` — the result is the empty forest
together with `true`, not an unchanged forest with `false`.
-/
theorem moveNode_into_descendant_corrupts :
    (moveNode pairForest 1 2 .child .append).2 = true ∧
      (moveNode pairForest 1 2 .child .append).1.ids = [] ∧
      pairForest.ids = [1, 2] := by
  refine ⟨rfl, rfl, rfl⟩

/-- The sibling splice treats `'append'` exactly like `'before'`:
`insertIndex = position === 'after' ? targetIndex + 1 : targetIndex`. -/
theorem spliceSiblingAt_append_eq_before (tid : Nat) (src : Node) :
    ∀ f, spliceSiblingAt f tid .append src = spliceSiblingAt f tid .before src := by
  intro f
  induction f using Forest.inductionOn with
  | hnil => rfl
  | hcons c cs rest ihcs ihrest =>
    simp only [spliceSiblingAt]
    rw [ihcs, ihrest]
    simp

/-- C3 (counterexample).  The claim says `move(forest, id, targetId, sibling,
append)` puts the moved node at the end of the target's containing
sibling sequence.  With roots `[1, 2, 3]`, moving 3 with target 1 and
position `append` would then give top-level order `[1, 2, 3]` (the moved
node last); the code instead inserts at the target's own index, giving
`[3, 1, 2]`.
-/
theorem moveNode_append_not_at_end :
    (moveNode threeRoots 3 1 .sibling .append).1.topIds = [3, 1, 2] ∧
      (moveNode threeRoots 3 1 .sibling .append).1.topIds ≠ [1, 2, 3] := by
  exact ⟨rfl, by decide⟩

/-- C3 (amended).  `position = append` does not insert at the end of the
target's containing sequence: the source computes
`insertIndex = position === 'after' ? targetIndex + 1 : targetIndex`, so
`append` coincides with `before` — the moved node is inserted
immediately before `targetId`.  Formally, a sibling move with `append`
is identical to the same move with `before`, on every forest.
-/
theorem moveNode_append_eq_before (f : Forest) (nodeId targetId : Nat) :
    moveNode f nodeId targetId .sibling .append =
      moveNode f nodeId targetId .sibling .before := by
  unfold moveNode
  simp only [spliceSiblingAt_append_eq_before]

/-- C4 (counterexample).  The claim says `parentChain` returns the ancestors
from the shallowest (a root) down to the immediate parent.  On the chain
forest `1 → 2 → 3`, the ancestors of node 3 in that order are
`[1, 2]`; `getParentChain` returns `[2, 1]` — the immediate parent
first — because the traversal `unshift`s each ancestor while descending.
-/
theorem getParentChain_not_shallowest_first :
    (getParentChain chainForest 3).map Node.id = [2, 1] ∧
      (getParentChain chainForest 3).map Node.id ≠ [1, 2] := by
  exact ⟨rfl, by decide⟩

/-- C4 (amended).  `getParentChain(forest, id)` returns the ancestors of the
first preorder node with that id ordered from the immediate parent up to
the shallowest ancestor (a root) — the reverse of the order the claim
states — excluding the node itself, and the empty sequence when the node
is a root or is not found.  Formally it equals the reverse of the
structural root-to-parent ancestor path (`ancestorPathTo`, which is
`none` exactly when the node is absent and `[]` when it is a root).
-/
theorem getParentChain_eq_reverse_ancestorPath (f : Forest) (tid : Nat) :
    getParentChain f tid = ((ancestorPathTo f tid).getD []).reverse := by
  induction f using Forest.inductionOn with
  | hnil => rfl
  | hcons c cs rest ihcs ihrest =>
    simp only [getParentChain, ancestorPathTo]
    by_cases h : c.id = tid
    · simp [h]
    · simp only [if_neg h]
      cases hps : ancestorPathTo cs tid with
      | some p =>
        have hfind : (findNodeById cs tid).isSome = true := by
          rw [find_isSome_eq_path_isSome, hps]; rfl
        rw [if_pos hfind, ihcs, hps]
        simp
      | none =>
        have hfind : (findNodeById cs tid).isSome = false := by
          rw [find_isSome_eq_path_isSome, hps]; rfl
        rw [hfind] at *
        simp only [Bool.false_eq_true, if_false]
        rw [ihrest]

/-- The three drop intents of `computeActiveDropIntent`. -/
inductive DropMode where
  | siblingBefore
  | siblingAfter
  | child
deriving DecidableEq

/-- The zone-classification fragment of
`MindMapRenderer.computeActiveDropIntent` (lines 782–814): with the
target card's bounding rectangle and the pointer's client y-coordinate,
`y = clientY - rect.top`, `zoneTop = rect.height * 0.25`,
`zoneBottom = rect.height * 0.75`; `y < zoneTop` → sibling-before,
`y > zoneBottom` → sibling-after, otherwise child.  DOM float pixels are
modelled over `ℚ`; the preceding hit-testing and descendant guards are
DOM-side and outside this fragment. -/
def classifyDropZone (rectTop rectHeight clientY : ℚ) : DropMode :=
  let y := clientY - rectTop
  let zoneTop := rectHeight * (1 / 4)
  let zoneBottom := rectHeight * (3 / 4)
  if y < zoneTop then .siblingBefore
  else if y > zoneBottom then .siblingAfter
  else .child

/-- C7.  For every drop target card, the pointer's vertical offset within the
card classifies the drop intent: strictly inside the top quartile →
sibling-before, strictly inside the bottom quartile → sibling-after, the
middle half (inclusive) → child; in particular for a card spanning rows
[100, 200], row 120 → sibling-before, row 150 → child, row 190 →
sibling-after.
-/
theorem dropZone_classification :
    (∀ top h y : ℚ, 0 ≤ h →
      (y - top < h / 4 → classifyDropZone top h y = .siblingBefore) ∧
      (y - top > 3 * h / 4 → classifyDropZone top h y = .siblingAfter) ∧
      (h / 4 ≤ y - top → y - top ≤ 3 * h / 4 → classifyDropZone top h y = .child)) ∧
    classifyDropZone 100 100 120 = .siblingBefore ∧
    classifyDropZone 100 100 150 = .child ∧
    classifyDropZone 100 100 190 = .siblingAfter := by
  refine ⟨fun top h y hh => ⟨?_, ?_, ?_⟩, by norm_num [classifyDropZone], by norm_num [classifyDropZone], by norm_num [classifyDropZone]⟩
  · intro hlt
    simp only [classifyDropZone]
    rw [if_pos (by linarith)]
  · intro hgt
    simp only [classifyDropZone]
    rw [if_neg (by linarith), if_pos (by linarith)]
  · intro h1 h2
    simp only [classifyDropZone]
    rw [if_neg (by linarith), if_neg (by linarith)]

/-- C7 (witness).  The general zone bounds applied at the concrete card
[100, 200] and pointer row 120.
-/
theorem dropZone_classification_witness :
    classifyDropZone 100 100 120 = .siblingBefore :=
  (dropZone_classification.1 100 100 120 (by norm_num)).1 (by norm_num)

/-- `Math.round(v * dpr) / dpr` of `validateSymmetry` — JS `Math.round`
rounds half towards positive infinity, which is `round` on `ℚ`
(`⌊x + 1/2⌋`). -/
def snapQ (dpr v : ℚ) : ℚ := (round (v * dpr) : ℤ) / dpr

/-- The per-parent body of `MindMapRenderer.validateSymmetry`: snap the
parent card's vertical center, snap each child card's center, sort
ascending (`sort((a, b) => a - b)`), take the middle element for an odd
count or the mean of the two central elements for an even count, and
report a needed fix when it differs from the parent center by more than
1.  Rectangles are `(top, height)` pairs over `ℚ`; a parent with no
child cards reports no fix (the source returns before the comparison). -/
def checkParentSymmetry (dpr parentTop parentHeight : ℚ)
    (childRects : List (ℚ × ℚ)) : Bool :=
  let parentCenterY := snapQ dpr (parentTop + parentHeight / 2)
  let centers := ((childRects.map (fun r => snapQ dpr (r.1 + r.2 / 2))).mergeSort (· ≤ ·))
  if centers.length = 0 then false
  else
    let mid :=
      if centers.length % 2 = 1 then centers.getD ((centers.length - 1) / 2) 0
      else (centers.getD (centers.length / 2 - 1) 0 + centers.getD (centers.length / 2) 0) / 2
    decide (|mid - parentCenterY| > 1)

/-- `MindMapRenderer.validateSymmetry` over the visible wrappers: the
layout needs a fix when any parent's check does. -/
def validateSymmetry (dpr : ℚ)
    (parents : List ((ℚ × ℚ) × List (ℚ × ℚ))) : Bool :=
  parents.any fun p => checkParentSymmetry dpr p.1.1 p.1.2 p.2

/-- The median of an already sorted list, in the spec's words: the
midpoint element for an odd count, the average of the two central
elements for an even count. -/
def medianOfSorted (l : List ℚ) : ℚ :=
  if l.length % 2 = 1 then l.getD ((l.length - 1) / 2) 0
  else (l.getD (l.length / 2 - 1) 0 + l.getD (l.length / 2) 0) / 2

/-- C8.  For every parent with a non-empty list of child card rectangles, the
symmetry check flags the layout as not converged exactly when the median
of the sorted (snapped) child centers — midpoint element for an odd
count, average of the two central elements for an even count — differs
from the parent card's (snapped) vertical center by more than the
tolerance 1.
-/
theorem symmetry_flags_iff_median_off (dpr parentTop parentHeight : ℚ)
    (childRects : List (ℚ × ℚ)) (hne : childRects ≠ []) :
    checkParentSymmetry dpr parentTop parentHeight childRects = true ↔
      |medianOfSorted ((childRects.map (fun r => snapQ dpr (r.1 + r.2 / 2))).mergeSort (· ≤ ·)) -
          snapQ dpr (parentTop + parentHeight / 2)| > 1 := by
  have hlen : ((childRects.map (fun r => snapQ dpr (r.1 + r.2 / 2))).mergeSort (· ≤ ·)).length ≠ 0 := by
    rw [List.length_mergeSort, List.length_map]
    simpa using hne
  simp only [checkParentSymmetry, medianOfSorted]
  rw [if_neg hlen]
  split <;> simp

/-- C8 (witness).  Three children with snapped centers 1, 5, 7 under a parent
with snapped center 5: the median is 5 and no fix is flagged.
-/
theorem symmetry_flags_iff_median_off_witness :
    checkParentSymmetry 1 0 10 [(0, 2), (4, 2), (6, 2)] = true ↔
      |medianOfSorted (([(0, 2), (4, 2), (6, 2)].map
          (fun r : ℚ × ℚ => snapQ 1 (r.1 + r.2 / 2))).mergeSort (· ≤ ·)) -
        snapQ 1 (0 + 10 / 2)| > 1 :=
  symmetry_flags_iff_median_off 1 0 10 [(0, 2), (4, 2), (6, 2)] (by decide)

/-- One scheduled frame of `MindMapRenderer.scheduleConnectionsRender`
and its rerun guard, with the DOM abstracted: `pass` is one
`normalizeAllLayouts`-plus-`validateSymmetry` pass over abstract layout
state `σ`, returning the new state and whether it reported a change;
`p` is `this.normalizePasses`.  The source reschedules while the pass
reported a change and `normalizePasses < 3`, incrementing the counter,
and otherwise resets the counter and draws.  The result records the
final state and the change flag of every executed pass. -/
def layoutPassLoop {σ : Type} (pass : σ → σ × Bool) (s : σ) (p : Nat) :
    σ × List Bool :=
  let r := pass s
  if h : r.2 = true ∧ p < 3 then
    let next := layoutPassLoop pass r.1 (p + 1)
    (next.1, r.2 :: next.2)
  else (r.1, [r.2])
termination_by 3 - p
decreasing_by omega

/-- Every run of the rerun loop executes at least one pass. -/
theorem layoutPassLoop_ne_nil {σ : Type} (pass : σ → σ × Bool) (p : Nat) (s : σ) :
    (layoutPassLoop pass s p).2 ≠ [] := by
  rw [layoutPassLoop]
  by_cases hc : (pass s).2 = true ∧ p < 3
  · simp only [dif_pos hc]
    simp
  · simp only [dif_neg hc]
    simp

/-- Pass-count bound and early stopping of `layoutPassLoop`, for every
starting counter value: at most `4 - p` passes run, and every pass
except the last reported a change. -/
theorem layoutPassLoop_bound {σ : Type} (pass : σ → σ × Bool) :
    ∀ p s, p ≤ 3 →
      (layoutPassLoop pass s p).2.length ≤ 4 - p ∧
        ∀ b ∈ (layoutPassLoop pass s p).2.dropLast, b = true := by
  intro p
  generalize hp : 3 - p = k
  induction k generalizing p with
  | zero =>
    intro s hple
    have hp3 : p = 3 := by omega
    subst hp3
    rw [layoutPassLoop]
    rw [dif_neg (by omega)]
    exact ⟨by simp, by simp⟩
  | succ k ih =>
    intro s hple
    rw [layoutPassLoop]
    by_cases hc : (pass s).2 = true ∧ p < 3
    · rw [dif_pos hc]
      have hrec := ih (p + 1) (by omega) (pass s).1 (by omega)
      have hnn := layoutPassLoop_ne_nil pass (p + 1) (pass s).1
      constructor
      · have := hrec.1
        simp only [List.length_cons]
        omega
      · intro b hb
        rw [List.dropLast_cons_of_ne_nil hnn] at hb
        rcases List.mem_cons.mp hb with h | h
        · subst h; exact hc.1
        · exact hrec.2 b h
    · rw [dif_neg hc]
      exact ⟨by simp; omega, by simp⟩

/-- C9.  Starting from a reset counter, the normalization pass reruns at most
3 more times after the initial pass (at most 4 passes in total), and
every executed pass except the final one had reported a change — the
loop stops as soon as a pass reports no change.  Termination itself is
intrinsic: `layoutPassLoop` is a total function, structurally bounded by
the `normalizePasses < 3` guard.
-/
theorem layout_loop_bounded {σ : Type} (pass : σ → σ × Bool) (s : σ) :
    (layoutPassLoop pass s 0).2.length ≤ 4 ∧
      ∀ b ∈ (layoutPassLoop pass s 0).2.dropLast, b = true :=
  layoutPassLoop_bound pass 0 s (by omega)

/-- C9 (witness).  The bound applied to a concrete always-changing pass over
`Nat` states: it runs exactly 4 passes and every non-final one changed.
-/
theorem layout_loop_bounded_witness :
    (layoutPassLoop (fun n : Nat => (n + 1, true)) 0 0).2.length ≤ 4 ∧
      ∀ b ∈ (layoutPassLoop (fun n : Nat => (n + 1, true)) 0 0).2.dropLast, b = true :=
  layout_loop_bounded (fun n : Nat => (n + 1, true)) 0

/-- Hierarchy bookkeeping soundness of a forest under a containing
context: every node's `parentId` equals the id of the node whose
`children` array contains it (`p`, `none` at the top level) and every
node's `level` is one more than its parent's (`l`, 1 at the top level) —
invariants 1 and 2 of the spec's data model. -/
def levelsOkB (p : Option Nat) (l : Nat) : Forest → Bool
  | .nil => true
  | .cons (.mk c cs) rest =>
    (c.parentId == p) && (c.level == l) && levelsOkB (some c.id) (l + 1) cs &&
      levelsOkB p l rest

/-- A valid forest: hierarchy bookkeeping sound from the root context and
all identifiers distinct (invariant 5).  Acyclicity (invariant 3) is
intrinsic to the inductive representation. -/
def ValidForest (f : Forest) : Prop :=
  levelsOkB none 1 f = true ∧ f.ids.Nodup

/-- `f' ` is `f` with `newNode` spliced in immediately after the first
preorder occurrence of the node with id `tid` (and hence immediately
before that node's original next sibling), inside that node's containing
sequence. -/
inductive SiblingInserted (tid : Nat) (newNode : Node) : Forest → Forest → Prop where
  | here (n : Node) (rest : Forest) :
      n.id = tid →
      SiblingInserted tid newNode (.cons n rest) (.cons n (.cons newNode rest))
  | inChildren (c : NodeCore) (cs cs' rest : Forest) :
      c.id ≠ tid → SiblingInserted tid newNode cs cs' →
      SiblingInserted tid newNode (.cons (.mk c cs) rest) (.cons (.mk c cs') rest)
  | inRest (n : Node) (rest rest' : Forest) :
      n.id ≠ tid → findNodeById n.children tid = none →
      SiblingInserted tid newNode rest rest' →
      SiblingInserted tid newNode (.cons n rest) (.cons n rest')

/-- When the target id is absent, the sibling-insertion walk fails. -/
theorem addSiblingIn_not_found (tid : Nat) (title : Str) (newId : Nat) :
    ∀ (f : Forest) (pid : Option Nat), findNodeById f tid = none →
      addSiblingIn pid tid title newId f = none := by
  intro f
  induction f using Forest.inductionOn with
  | hnil => intro pid _; rfl
  | hcons c cs rest ihcs ihrest =>
    intro pid hfind
    simp only [findNodeById] at hfind
    by_cases h : c.id = tid
    · simp [h] at hfind
    · rw [if_neg h] at hfind
      have hcs : findNodeById cs tid = none := by
        cases hc : findNodeById cs tid with
        | none => rfl
        | some m => rw [hc] at hfind; exact absurd hfind (by simp)
      rw [hcs] at hfind
      simp only [addSiblingIn, if_neg h, ihcs (some c.id) hcs, ihrest pid hfind]

/-- When the target is found, `addSibling` splices in a node carrying the
target's `level` and the containing context's parent id — which, in a
level-sound forest, is exactly the target's own `parentId` field. -/
theorem addSiblingIn_found (tid : Nat) (title : Str) (newId : Nat) :
    ∀ (f : Forest) (pid : Option Nat) (l : Nat) (X : Node),
      levelsOkB pid l f = true → findNodeById f tid = some X →
      ∃ f', addSiblingIn pid tid title newId f =
          some (f', Node.mk ⟨newId, title, some [], X.level, false, X.parentId⟩ .nil) ∧
        SiblingInserted tid (Node.mk ⟨newId, title, some [], X.level, false, X.parentId⟩ .nil) f f' := by
  intro f
  induction f using Forest.inductionOn with
  | hnil => intro pid l X _ hfind; exact absurd hfind (by simp [findNodeById])
  | hcons c cs rest ihcs ihrest =>
    intro pid l X hok hfind
    simp only [levelsOkB, Bool.and_eq_true, beq_iff_eq] at hok
    obtain ⟨⟨⟨hpid, hlvl⟩, hokcs⟩, hokrest⟩ := hok
    simp only [findNodeById] at hfind
    by_cases h : c.id = tid
    · rw [if_pos h] at hfind
      have hX : X = Node.mk c cs := by cases hfind; rfl
      subst hX
      refine ⟨.cons (.mk c cs) (.cons (Node.mk ⟨newId, title, some [], c.level, false, c.parentId⟩ .nil) rest), ?_, ?_⟩
      · simp only [addSiblingIn, if_pos h]
        rw [← hpid]
        rfl
      · exact SiblingInserted.here (Node.mk c cs) rest h
    · rw [if_neg h] at hfind
      cases hcsfind : findNodeById cs tid with
      | some m =>
        rw [hcsfind] at hfind
        have hXm : m = X := by cases hfind; rfl
        subst hXm
        obtain ⟨cs', heq, hins⟩ := ihcs (some c.id) (l + 1) m hokcs hcsfind
        refine ⟨.cons (.mk c cs') rest, ?_, ?_⟩
        · simp only [addSiblingIn, if_neg h, heq]
        · exact SiblingInserted.inChildren c cs cs' rest h hins
      | none =>
        rw [hcsfind] at hfind
        obtain ⟨rest', heq, hins⟩ := ihrest pid l X hokrest hfind
        refine ⟨.cons (.mk c cs) rest', ?_, ?_⟩
        · simp only [addSiblingIn, if_neg h,
            addSiblingIn_not_found tid title newId cs (some c.id) hcsfind, heq]
        · exact SiblingInserted.inRest (Node.mk c cs) rest rest' h hcsfind hins

/-- C2/C5 helper: `Node.id` of a `Node.mk` unfolds to the core's id.
-/
theorem Node.id_mk (c : NodeCore) (cs : Forest) : (Node.mk c cs).id = c.id := rfl

/-- C5.  For every valid forest containing a node X with id `tid`,
`addSiblingNode` creates a node at X's `level` with X's `parentId`,
empty children, the requested title, and splices it immediately after X
in X's containing sequence (hence before X's original next sibling); if
`tid` is not found, the result is `null` and the forest is returned
unchanged.
-/
theorem addSiblingNode_spec (f : Forest) (tid : Nat) (title : Str) (newId : Nat)
    (hv : ValidForest f) :
    (findNodeById f tid = none → addSiblingNode f tid title newId = (f, none)) ∧
    ∀ X, findNodeById f tid = some X →
      ∃ f', addSiblingNode f tid title newId =
          (f', some (Node.mk ⟨newId, title, some [], X.level, false, X.parentId⟩ .nil)) ∧
        SiblingInserted tid (Node.mk ⟨newId, title, some [], X.level, false, X.parentId⟩ .nil) f f' := by
  constructor
  · intro hnone
    simp only [addSiblingNode, addSiblingIn_not_found tid title newId f none hnone]
  · intro X hfind
    obtain ⟨f', heq, hins⟩ := addSiblingIn_found tid title newId f none 1 X hv.1 hfind
    exact ⟨f', by simp only [addSiblingNode, heq], hins⟩

/-- C5 (witness).  The specification applied to the concrete valid forest
`[1 [2]]` with target id 2.
-/
theorem addSiblingNode_spec_witness :
    (findNodeById pairForest 2 = none → addSiblingNode pairForest 2 [] 7 = (pairForest, none)) ∧
    ∀ X, findNodeById pairForest 2 = some X →
      ∃ f', addSiblingNode pairForest 2 [] 7 =
          (f', some (Node.mk ⟨7, [], some [], X.level, false, X.parentId⟩ .nil)) ∧
        SiblingInserted 2 (Node.mk ⟨7, [], some [], X.level, false, X.parentId⟩ .nil) pairForest f' :=
  addSiblingNode_spec pairForest 2 [] 7 ⟨rfl, by decide⟩

/-- The ids of a node and of its entire subtree. -/
def Node.subIds (n : Node) : List Nat := n.id :: n.children.ids

/-- `ids` distributes over forest append. -/
theorem Forest.ids_append : ∀ f g : Forest, (f.append g).ids = f.ids ++ g.ids := by
  intro f g
  induction f using Forest.inductionOn with
  | hnil => rfl
  | hcons c cs rest _ ihrest =>
    simp only [Forest.append, Forest.ids, ihrest, List.cons_append, List.append_assoc]

/-- `topIds` distributes over forest append. -/
theorem Forest.topIds_append : ∀ f g : Forest, (f.append g).topIds = f.topIds ++ g.topIds := by
  intro f g
  induction f using Forest.inductionOn with
  | hnil => rfl
  | hcons c cs rest _ ihrest =>
    simp only [Forest.append, Forest.topIds, ihrest, List.cons_append]

/-- `levelsOkB` distributes over forest append. -/
theorem levelsOkB_append (p : Option Nat) (l : Nat) :
    ∀ f g : Forest, levelsOkB p l (f.append g) = (levelsOkB p l f && levelsOkB p l g) := by
  intro f g
  induction f using Forest.inductionOn with
  | hnil => simp [Forest.append, levelsOkB]
  | hcons c cs rest _ ihrest =>
    simp only [Forest.append, levelsOkB, ihrest]
    cases c.parentId == p <;> cases c.level == l <;>
      cases levelsOkB (some c.id) (l + 1) cs <;> cases levelsOkB p l rest <;> simp

/-- `findNodeById` hits exactly the ids present in the forest. -/
theorem find_isSome_iff_mem (tid : Nat) :
    ∀ f : Forest, (findNodeById f tid).isSome = true ↔ tid ∈ f.ids := by
  intro f
  induction f using Forest.inductionOn with
  | hnil => simp [findNodeById, Forest.ids]
  | hcons c cs rest ihcs ihrest =>
    simp only [findNodeById, Forest.ids]
    by_cases h : c.id = tid
    · simp [h]
    · rw [if_neg h]
      cases hcs : findNodeById cs tid with
      | some m =>
        have : tid ∈ cs.ids := ihcs.mp (by rw [hcs]; rfl)
        simp [this, Ne.symm h]
      | none =>
        have hnotcs : tid ∉ cs.ids := fun hm => by
          have := ihcs.mpr hm
          rw [hcs] at this
          exact absurd this (by simp)
        rw [List.mem_cons, List.mem_append]
        constructor
        · intro hs
          exact Or.inr (Or.inr (ihrest.mp hs))
        · rintro (heq | hmem | hmem)
          · exact absurd heq.symm h
          · exact absurd hmem hnotcs
          · exact ihrest.mpr hmem

/-- Absent ids are not found. -/
theorem find_eq_none_of_not_mem (tid : Nat) (f : Forest) (h : tid ∉ f.ids) :
    findNodeById f tid = none := by
  cases hf : findNodeById f tid with
  | none => rfl
  | some m => exact absurd ((find_isSome_iff_mem tid f).mp (by rw [hf]; rfl)) h

/-- Present ids are found. -/
theorem find_isSome_of_mem (tid : Nat) (f : Forest) (h : tid ∈ f.ids) :
    (findNodeById f tid).isSome = true :=
  (find_isSome_iff_mem tid f).mpr h

/-- Top-level ids are ids. -/
theorem mem_ids_of_mem_topIds (tid : Nat) :
    ∀ f : Forest, tid ∈ f.topIds → tid ∈ f.ids := by
  intro f
  induction f using Forest.inductionOn with
  | hnil => simp [Forest.topIds, Forest.ids]
  | hcons c cs rest _ ihrest =>
    simp only [Forest.topIds, Forest.ids, List.mem_cons, List.mem_append]
    rintro (h | h)
    · exact Or.inl h
    · exact Or.inr (Or.inr (ihrest h))

/-- The detached node of a successful extraction carries the requested id. -/
theorem extractNode_id (tid : Nat) :
    ∀ (f rest : Forest) (src : Node), extractNode f tid = some (rest, src) → src.id = tid := by
  intro f
  induction f using Forest.inductionOn with
  | hnil => intro rest src h; exact absurd h (by simp [extractNode])
  | hcons c cs rest2 ihcs ihrest =>
    intro rest src h
    simp only [extractNode] at h
    by_cases hc : c.id = tid
    · rw [if_pos hc] at h
      cases h
      exact hc
    · rw [if_neg hc] at h
      cases hcs : extractNode cs tid with
      | some pr =>
        rw [hcs] at h
        cases h
        exact ihcs pr.1 pr.2 (by rw [hcs])
      | none =>
        rw [hcs] at h
        cases hrest : extractNode rest2 tid with
        | some pr =>
          rw [hrest] at h
          cases h
          exact ihrest pr.1 pr.2 (by rw [hrest])
        | none => rw [hrest] at h; exact absurd h (by simp)

/-- Extraction splits the id multiset: the original ids are a permutation
of the moved subtree's ids followed by the remaining forest's. -/
theorem extractNode_perm (tid : Nat) :
    ∀ (f rest : Forest) (src : Node), extractNode f tid = some (rest, src) →
      f.ids.Perm (src.subIds ++ rest.ids) := by
  intro f
  induction f using Forest.inductionOn with
  | hnil => intro rest src h; exact absurd h (by simp [extractNode])
  | hcons c cs rest2 ihcs ihrest =>
    intro rest src h
    simp only [extractNode] at h
    by_cases hc : c.id = tid
    · rw [if_pos hc] at h
      cases h
      simp [Forest.ids, Node.subIds, Node.id, Node.core, Node.children]
    · rw [if_neg hc] at h
      cases hcs : extractNode cs tid with
      | some pr =>
        rw [hcs] at h
        cases h
        have ih := ihcs pr.1 pr.2 (by rw [hcs])
        simp only [Forest.ids]
        refine List.Perm.trans ?_ List.perm_middle.symm
        refine List.Perm.cons c.id ?_
        rw [← List.append_assoc]
        exact ih.append_right rest2.ids
      | none =>
        rw [hcs] at h
        cases hrest : extractNode rest2 tid with
        | some pr =>
          rw [hrest] at h
          cases h
          have ih := ihrest pr.1 pr.2 (by rw [hrest])
          simp only [Forest.ids]
          refine List.Perm.trans ?_ List.perm_middle.symm
          refine List.Perm.cons c.id ?_
          refine (ih.append_left cs.ids).trans ?_
          rw [← List.append_assoc, ← List.append_assoc]
          exact List.perm_append_comm.append_right pr.1.ids
        | none => rw [hrest] at h; exact absurd h (by simp)

/-- Extraction preserves hierarchy soundness of the remaining forest and
yields an internally sound moved subtree. -/
theorem extractNode_levelsOk (tid : Nat) :
    ∀ (f : Forest) (p : Option Nat) (l : Nat) (rest : Forest) (src : Node),
      levelsOkB p l f = true → extractNode f tid = some (rest, src) →
      levelsOkB p l rest = true ∧
        levelsOkB (some src.id) (src.level + 1) src.children = true := by
  intro f
  induction f using Forest.inductionOn with
  | hnil => intro p l rest src _ h; exact absurd h (by simp [extractNode])
  | hcons c cs rest2 ihcs ihrest =>
    intro p l rest src hok h
    simp only [levelsOkB, Bool.and_eq_true, beq_iff_eq] at hok
    obtain ⟨⟨⟨hpid, hlvl⟩, hokcs⟩, hokrest⟩ := hok
    simp only [extractNode] at h
    by_cases hc : c.id = tid
    · rw [if_pos hc] at h
      cases h
      refine ⟨hokrest, ?_⟩
      show levelsOkB (some c.id) (c.level + 1) cs = true
      rw [show c.level = l from hlvl]
      exact hokcs
    · rw [if_neg hc] at h
      cases hcs : extractNode cs tid with
      | some pr =>
        rw [hcs] at h
        cases h
        obtain ⟨h1, h2⟩ := ihcs (some c.id) (l + 1) pr.1 pr.2 hokcs (by rw [hcs])
        refine ⟨?_, h2⟩
        simp only [levelsOkB, Bool.and_eq_true, beq_iff_eq]
        exact ⟨⟨⟨hpid, hlvl⟩, h1⟩, hokrest⟩
      | none =>
        rw [hcs] at h
        cases hrest : extractNode rest2 tid with
        | some pr =>
          rw [hrest] at h
          cases h
          obtain ⟨h1, h2⟩ := ihrest p l pr.1 pr.2 hokrest (by rw [hrest])
          refine ⟨?_, h2⟩
          simp only [levelsOkB, Bool.and_eq_true, beq_iff_eq]
          exact ⟨⟨⟨hpid, hlvl⟩, hokcs⟩, h1⟩
        | none => rw [hrest] at h; exact absurd h (by simp)

/-- Deletion only removes ids: the remaining ids are a sublist. -/
theorem deleteNode_sublist (tid : Nat) :
    ∀ f : Forest, (deleteNode f tid).1.ids.Sublist f.ids := by
  intro f
  induction f using Forest.inductionOn with
  | hnil => simp [deleteNode]
  | hcons c cs rest ihcs ihrest =>
    simp only [deleteNode]
    by_cases hc : c.id = tid
    · rw [if_pos hc]
      show rest.ids.Sublist (Forest.cons (Node.mk c cs) rest).ids
      simp only [Forest.ids]
      exact (List.sublist_append_right (c.id :: cs.ids) rest.ids).trans (by simp)
    · rw [if_neg hc]
      cases hdel : deleteNode cs tid with
      | mk cs' b =>
        cases b with
        | true =>
          simp only [Forest.ids]
          have : cs'.ids.Sublist cs.ids := by
            have := ihcs
            rw [hdel] at this
            exact this
          exact (this.append_right rest.ids).cons₂ c.id
        | false =>
          cases hdel2 : deleteNode rest tid with
          | mk rest' b2 =>
            simp only [Forest.ids]
            have : rest'.ids.Sublist rest.ids := by
              have := ihrest
              rw [hdel2] at this
              exact this
            exact (this.append_left cs.ids).cons₂ c.id

/-- Deletion preserves hierarchy soundness. -/
theorem deleteNode_levelsOk (tid : Nat) :
    ∀ (f : Forest) (p : Option Nat) (l : Nat),
      levelsOkB p l f = true → levelsOkB p l (deleteNode f tid).1 = true := by
  intro f
  induction f using Forest.inductionOn with
  | hnil => intro p l h; exact h
  | hcons c cs rest ihcs ihrest =>
    intro p l hok
    simp only [levelsOkB, Bool.and_eq_true, beq_iff_eq] at hok
    obtain ⟨⟨⟨hpid, hlvl⟩, hokcs⟩, hokrest⟩ := hok
    simp only [deleteNode]
    by_cases hc : c.id = tid
    · rw [if_pos hc]
      exact hokrest
    · rw [if_neg hc]
      cases hdel : deleteNode cs tid with
      | mk cs' b =>
        cases b with
        | true =>
          simp only [levelsOkB, Bool.and_eq_true, beq_iff_eq]
          refine ⟨⟨⟨hpid, hlvl⟩, ?_⟩, hokrest⟩
          have := ihcs (some c.id) (l + 1) hokcs
          rw [hdel] at this
          exact this
        | false =>
          cases hdel2 : deleteNode rest tid with
          | mk rest' b2 =>
            simp only [levelsOkB, Bool.and_eq_true, beq_iff_eq]
            refine ⟨⟨⟨hpid, hlvl⟩, hokcs⟩, ?_⟩
            have := ihrest p l hokrest
            rw [hdel2] at this
            exact this

/-- Parent-link soundness alone (no level constraint): every node's
`parentId` names the owner of its containing array. -/
def linkedOkB (p : Option Nat) : Forest → Bool
  | .nil => true
  | .cons (.mk c cs) rest => (c.parentId == p) && linkedOkB (some c.id) cs && linkedOkB p rest

/-- Level soundness implies parent-link soundness. -/
theorem linkedOk_of_levelsOk :
    ∀ (f : Forest) (p : Option Nat) (l : Nat),
      levelsOkB p l f = true → linkedOkB p f = true := by
  intro f
  induction f using Forest.inductionOn with
  | hnil => intro p l _; rfl
  | hcons c cs rest ihcs ihrest =>
    intro p l hok
    simp only [levelsOkB, Bool.and_eq_true, beq_iff_eq] at hok
    obtain ⟨⟨⟨hpid, hlvl⟩, hokcs⟩, hokrest⟩ := hok
    simp only [linkedOkB, Bool.and_eq_true, beq_iff_eq]
    exact ⟨⟨hpid, ihcs (some c.id) (l + 1) hokcs⟩, ihrest p l hokrest⟩

/-- Renumbering levels does not change ids. -/
theorem setLevels_ids : ∀ (f : Forest) (l : Nat), (setLevels l f).ids = f.ids := by
  intro f
  induction f using Forest.inductionOn with
  | hnil => intro l; rfl
  | hcons c cs rest ihcs ihrest =>
    intro l
    simp only [setLevels, Forest.ids, ihcs, ihrest]

/-- Renumbering levels restores level soundness on a link-sound forest. -/
theorem levelsOk_setLevels :
    ∀ (f : Forest) (p : Option Nat) (l : Nat),
      linkedOkB p f = true → levelsOkB p l (setLevels l f) = true := by
  intro f
  induction f using Forest.inductionOn with
  | hnil => intro p l _; rfl
  | hcons c cs rest ihcs ihrest =>
    intro p l hok
    simp only [linkedOkB, Bool.and_eq_true, beq_iff_eq] at hok
    obtain ⟨⟨hpid, hokcs⟩, hokrest⟩ := hok
    simp only [setLevels, levelsOkB, Bool.and_eq_true, beq_iff_eq]
    exact ⟨⟨⟨hpid, by simp⟩, ihcs (some c.id) (l + 1) hokcs⟩, ihrest p l hokrest⟩

/-- The context of the containing sequence of the first preorder
occurrence of `tid`: the id of the owning node (`none` for the root
sequence) and the level one below the owner (the outer `(p, l)` for the
root call). -/
def ctxOf (p : Option Nat) (l : Nat) (f : Forest) (tid : Nat) : Option (Option Nat × Nat) :=
  match f with
  | .nil => none
  | .cons (.mk c cs) rest =>
    if c.id = tid then some (p, l)
    else
      match ctxOf (some c.id) (c.level + 1) cs tid with
      | some r => some r
      | none => ctxOf p l rest tid

/-- `ctxOf` hits exactly when `findNodeById` does. -/
theorem ctx_isSome_eq_find_isSome (tid : Nat) :
    ∀ (f : Forest) (p : Option Nat) (l : Nat),
      (ctxOf p l f tid).isSome = (findNodeById f tid).isSome := by
  intro f
  induction f using Forest.inductionOn with
  | hnil => intro p l; rfl
  | hcons c cs rest ihcs ihrest =>
    intro p l
    simp only [ctxOf, findNodeById]
    by_cases h : c.id = tid
    · simp [h]
    · rw [if_neg h, if_neg h]
      cases hcs : ctxOf (some c.id) (c.level + 1) cs tid with
      | some r =>
        have := ihcs (some c.id) (c.level + 1)
        rw [hcs] at this
        cases hf : findNodeById cs tid with
        | some m => simp
        | none => rw [hf] at this; exact absurd this.symm (by simp)
      | none =>
        have := ihcs (some c.id) (c.level + 1)
        rw [hcs] at this
        cases hf : findNodeById cs tid with
        | some m => rw [hf] at this; exact absurd this (by simp)
        | none => simpa using ihrest p l

/-- Absent ids have no context. -/
theorem ctx_none_of_not_mem (tid : Nat) (f : Forest) (p : Option Nat) (l : Nat)
    (h : tid ∉ f.ids) : ctxOf p l f tid = none := by
  cases hc : ctxOf p l f tid with
  | none => rfl
  | some r =>
    have h1 : (ctxOf p l f tid).isSome = true := by rw [hc]; rfl
    rw [ctx_isSome_eq_find_isSome] at h1
    exact absurd ((find_isSome_iff_mem tid f).mp h1) h

/-- An id absent from a forest is nobody's direct child there. -/
theorem findParent_none_of_not_mem (tid : Nat) :
    ∀ f : Forest, tid ∉ f.ids → findParentNode f tid = none := by
  intro f
  induction f using Forest.inductionOn with
  | hnil => intro _; rfl
  | hcons c cs rest ihcs ihrest =>
    intro h
    simp only [Forest.ids, List.mem_cons, List.mem_append] at h
    push_neg at h
    obtain ⟨_, hcs, hrest⟩ := h
    simp only [findParentNode]
    rw [if_neg (fun hmem => hcs (mem_ids_of_mem_topIds tid cs (by simpa using hmem)))]
    rw [ihcs hcs, ihrest hrest]

/-- A present id that is not at the top level is somebody's direct child. -/
theorem findParent_isSome_of_deep (tid : Nat) :
    ∀ f : Forest, tid ∈ f.ids → tid ∉ f.topIds → (findParentNode f tid).isSome = true := by
  intro f
  induction f using Forest.inductionOn with
  | hnil => intro h _; simp [Forest.ids] at h
  | hcons c cs rest ihcs ihrest =>
    intro hmem htop
    simp only [Forest.ids, List.mem_cons, List.mem_append] at hmem
    simp only [Forest.topIds, List.mem_cons, Node.id_mk] at htop
    push_neg at htop
    obtain ⟨hne, htoprest⟩ := htop
    simp only [findParentNode]
    by_cases htopcs : tid ∈ cs.topIds
    · rw [if_pos (by simpa using htopcs)]
      rfl
    · rw [if_neg (by simpa using htopcs)]
      rcases hmem with heq | hcs | hrest
      · exact absurd heq hne
      · have := ihcs hcs htopcs
        cases hf : findParentNode cs tid with
        | some q => rfl
        | none => rw [hf] at this; exact absurd this (by simp)
      · cases hf : findParentNode cs tid with
        | some q => rfl
        | none => exact ihrest hrest htoprest

/-- In a duplicate-free forest, a top-level id's context is the sequence's
own context. -/
theorem ctx_of_mem_topIds (tid : Nat) :
    ∀ (f : Forest) (p : Option Nat) (l : Nat),
      f.ids.Nodup → tid ∈ f.topIds → ctxOf p l f tid = some (p, l) := by
  intro f
  induction f using Forest.inductionOn with
  | hnil => intro p l _ h; simp [Forest.topIds] at h
  | hcons c cs rest _ ihrest =>
    intro p l hnd htop
    simp only [Forest.ids, List.nodup_cons, List.nodup_append] at hnd
    obtain ⟨hhead, hndcs, hndrest, hdisj⟩ := hnd
    simp only [Forest.topIds, List.mem_cons, Node.id_mk] at htop
    simp only [ctxOf]
    rcases htop with heq | htoprest
    · rw [if_pos heq.symm]
    · have htidrest : tid ∈ rest.ids := mem_ids_of_mem_topIds tid rest htoprest
      have hne : ¬ c.id = tid := fun h => hhead (by rw [h]; simp [htidrest])
      rw [if_neg hne]
      have hnotcs : tid ∉ cs.ids := fun hmem => hdisj hmem htidrest
      rw [ctx_none_of_not_mem tid cs (some c.id) (c.level + 1) hnotcs]
      exact ihrest p l hndrest htoprest

/-- Coherence of `findParentNode` with the structural context: in a
duplicate-free forest, the recomputed parent of `tid` names exactly the
owner of `tid`'s containing sequence, and its level determines the
context level. -/
theorem findParent_coherent (tid : Nat) :
    ∀ (f : Forest) (p : Option Nat) (l : Nat) (pc : Option Nat) (lc : Nat),
      f.ids.Nodup → ctxOf p l f tid = some (pc, lc) →
      (match findParentNode f tid with
       | some q => pc = some q.id ∧ lc = q.level + 1
       | none => pc = p ∧ lc = l) := by
  intro f
  induction f using Forest.inductionOn with
  | hnil => intro p l pc lc _ h; exact absurd h (by simp [ctxOf])
  | hcons c cs rest ihcs ihrest =>
    intro p l pc lc hnd hctx
    simp only [Forest.ids, List.nodup_cons, List.nodup_append] at hnd
    obtain ⟨hhead, hndcs, hndrest, hdisj⟩ := hnd
    have hheadcs : c.id ∉ cs.ids := fun h => hhead (by simp [h])
    have hheadrest : c.id ∉ rest.ids := fun h => hhead (by simp [h])
    simp only [ctxOf] at hctx
    simp only [findParentNode]
    by_cases h : c.id = tid
    · rw [if_pos h] at hctx
      cases hctx
      have htid_cs : tid ∉ cs.ids := by rw [← h]; exact hheadcs
      have htid_rest : tid ∉ rest.ids := by rw [← h]; exact hheadrest
      rw [if_neg (fun hmem => htid_cs (mem_ids_of_mem_topIds tid cs (by simpa using hmem)))]
      rw [findParent_none_of_not_mem tid cs htid_cs,
        findParent_none_of_not_mem tid rest htid_rest]
      exact ⟨rfl, rfl⟩
    · rw [if_neg h] at hctx
      cases hcs : ctxOf (some c.id) (c.level + 1) cs tid with
      | some r =>
        rw [hcs] at hctx
        cases hctx
        have htidcs : tid ∈ cs.ids := by
          have h1 : (ctxOf (some c.id) (c.level + 1) cs tid).isSome = true := by rw [hcs]; rfl
          rw [ctx_isSome_eq_find_isSome] at h1
          exact (find_isSome_iff_mem tid cs).mp h1
        by_cases htop : tid ∈ cs.topIds
        · rw [if_pos (by simpa using htop)]
          have := ctx_of_mem_topIds tid cs (some c.id) (c.level + 1) hndcs htop
          rw [hcs] at this
          cases this
          exact ⟨rfl, rfl⟩
        · rw [if_neg (by simpa using htop)]
          have hdeep := findParent_isSome_of_deep tid cs htidcs htop
          cases hf : findParentNode cs tid with
          | some q =>
            have ihr := ihcs (some c.id) (c.level + 1) pc lc hndcs hcs
            rw [hf] at ihr
            exact ihr
          | none => rw [hf] at hdeep; exact absurd hdeep (by simp)
      | none =>
        rw [hcs] at hctx
        have htidcs : tid ∉ cs.ids := fun hmem => by
          have h1 := find_isSome_of_mem tid cs hmem
          rw [← ctx_isSome_eq_find_isSome tid cs (some c.id) (c.level + 1)] at h1
          rw [hcs] at h1
          exact absurd h1 (by simp)
        rw [if_neg (fun hmem => htidcs (mem_ids_of_mem_topIds tid cs (by simpa using hmem)))]
        rw [findParent_none_of_not_mem tid cs htidcs]
        exact ihrest p l pc lc hndrest hctx

/-- The child push succeeds exactly when the target id is found. -/
theorem pushChildAt_isSome_eq_find (tid : Nat) (src : Node) :
    ∀ f : Forest, (pushChildAt f tid src).isSome = (findNodeById f tid).isSome := by
  intro f
  induction f using Forest.inductionOn with
  | hnil => rfl
  | hcons c cs rest ihcs ihrest =>
    simp only [pushChildAt, findNodeById]
    by_cases h : c.id = tid
    · simp [h]
    · rw [if_neg h, if_neg h]
      cases hcs : pushChildAt cs tid src with
      | some cs' =>
        have := ihcs
        rw [hcs] at this
        cases hf : findNodeById cs tid with
        | some m => simp
        | none => rw [hf] at this; exact absurd this.symm (by simp)
      | none =>
        have := ihcs
        rw [hcs] at this
        cases hf : findNodeById cs tid with
        | some m => rw [hf] at this; exact absurd this (by simp)
        | none =>
          cases hr : pushChildAt rest tid src with
          | some rest' =>
            have h2 := ihrest
            rw [hr] at h2
            cases hfr : findNodeById rest tid with
            | some m => simp
            | none => rw [hfr] at h2; exact absurd h2.symm (by simp)
          | none =>
            have h2 := ihrest
            rw [hr] at h2
            cases hfr : findNodeById rest tid with
            | some m => rw [hfr] at h2; exact absurd h2 (by simp)
            | none => simp

/-- Rotating the middle summand of a three-part append to the end is a
permutation. -/
theorem appendRotatePerm (A S B : List Nat) : ((A ++ S) ++ B).Perm ((A ++ B) ++ S) := by
  rw [List.append_assoc, List.append_assoc]
  exact List.Perm.append_left A List.perm_append_comm

/-- The child push only adds the moved subtree's ids. -/
theorem pushChildAt_ids (tid : Nat) (src : Node) :
    ∀ (f f' : Forest), pushChildAt f tid src = some f' →
      f'.ids.Perm (f.ids ++ src.subIds) := by
  intro f
  induction f using Forest.inductionOn with
  | hnil => intro f' h; exact absurd h (by simp [pushChildAt])
  | hcons c cs rest ihcs ihrest =>
    intro f' h
    simp only [pushChildAt] at h
    by_cases hc : c.id = tid
    · rw [if_pos hc] at h
      cases h
      simp only [Forest.ids, Forest.ids_append, Node.subIds, updateNodeLevels, setLevels_ids,
        Node.children, Node.core, Node.id, List.append_nil, List.cons_append]
      exact (appendRotatePerm cs.ids (src.core.id :: src.children.ids) rest.ids).cons c.id
    · rw [if_neg hc] at h
      cases hcs : pushChildAt cs tid src with
      | some cs' =>
        rw [hcs] at h
        cases h
        have ih := ihcs cs' hcs
        simp only [Forest.ids, Node.subIds, Node.id, List.cons_append]
        refine List.Perm.cons c.id ?_
        exact (ih.append_right rest.ids).trans
          (appendRotatePerm cs.ids (src.core.id :: src.children.ids) rest.ids)
      | none =>
        rw [hcs] at h
        cases hr : pushChildAt rest tid src with
        | some rest' =>
          rw [hr] at h
          cases h
          have ih := ihrest rest' hr
          simp only [Node.subIds, Node.id] at ih
          simp only [Forest.ids, Node.subIds, Node.id, List.cons_append]
          refine List.Perm.cons c.id ?_
          exact (ih.append_left cs.ids).trans (by rw [← List.append_assoc])
        | none => rw [hr] at h; exact absurd h (by simp)

/-- The child push preserves hierarchy soundness: the moved node is
re-parented to the target and renumbered from the target's level. -/
theorem pushChildAt_levelsOk (tid : Nat) (src : Node)
    (hsrc : linkedOkB (some src.id) src.children = true) :
    ∀ (f f' : Forest) (p : Option Nat) (l : Nat),
      levelsOkB p l f = true → pushChildAt f tid src = some f' →
      levelsOkB p l f' = true := by
  intro f
  induction f using Forest.inductionOn with
  | hnil => intro f' p l _ h; exact absurd h (by simp [pushChildAt])
  | hcons c cs rest ihcs ihrest =>
    intro f' p l hok h
    simp only [levelsOkB, Bool.and_eq_true, beq_iff_eq] at hok
    obtain ⟨⟨⟨hpid, hlvl⟩, hokcs⟩, hokrest⟩ := hok
    simp only [pushChildAt] at h
    by_cases hc : c.id = tid
    · rw [if_pos hc] at h
      cases h
      rw [hc] at hokcs
      have hset := levelsOk_setLevels src.children (some src.id) (l + 1 + 1) hsrc
      simp only [Node.id, Node.core, Node.children] at hset
      simp [levelsOkB, levelsOkB_append, updateNodeLevels, Node.core, Node.children, Node.id,
        hpid, hlvl, hc, hokcs, hokrest, hset]
    · rw [if_neg hc] at h
      cases hcs : pushChildAt cs tid src with
      | some cs' =>
        rw [hcs] at h
        cases h
        simp only [levelsOkB, Bool.and_eq_true, beq_iff_eq]
        exact ⟨⟨⟨hpid, hlvl⟩, ihcs cs' (some c.id) (l + 1) hokcs hcs⟩, hokrest⟩
      | none =>
        rw [hcs] at h
        cases hr : pushChildAt rest tid src with
        | some rest' =>
          rw [hr] at h
          cases h
          simp only [levelsOkB, Bool.and_eq_true, beq_iff_eq]
          exact ⟨⟨⟨hpid, hlvl⟩, hokcs⟩, ihrest rest' p l hokrest hr⟩
        | none => rw [hr] at h; exact absurd h (by simp)

/-- `ids` of a cons in terms of the head's subtree ids. -/
theorem Forest.ids_cons (n : Node) (rest : Forest) :
    (Forest.cons n rest).ids = n.subIds ++ rest.ids := by
  cases n with
  | mk c cs => simp [Forest.ids, Node.subIds, Node.id, Node.core, Node.children]

/-- `levelsOkB` of a cons with an opaque head node. -/
theorem levelsOkB_cons (p : Option Nat) (l : Nat) (n : Node) (rest : Forest) :
    levelsOkB p l (.cons n rest) =
      ((n.parentId == p) && (n.level == l) && levelsOkB (some n.id) (l + 1) n.children &&
        levelsOkB p l rest) := by
  cases n with
  | mk c cs => rfl

/-- The sibling splice succeeds exactly when the target id is found. -/
theorem splice_isSome_eq_find (tid : Nat) (src : Node) (pos : MovePos) :
    ∀ f : Forest, (spliceSiblingAt f tid pos src).isSome = (findNodeById f tid).isSome := by
  intro f
  induction f using Forest.inductionOn with
  | hnil => rfl
  | hcons c cs rest ihcs ihrest =>
    simp only [spliceSiblingAt, findNodeById]
    by_cases h : c.id = tid
    · by_cases hp : pos = .after <;> simp [h, hp]
    · rw [if_neg h, if_neg h]
      cases hcs : spliceSiblingAt cs tid pos src with
      | some cs' =>
        have := ihcs
        rw [hcs] at this
        cases hf : findNodeById cs tid with
        | some m => simp
        | none => rw [hf] at this; exact absurd this.symm (by simp)
      | none =>
        have := ihcs
        rw [hcs] at this
        cases hf : findNodeById cs tid with
        | some m => rw [hf] at this; exact absurd this (by simp)
        | none =>
          cases hr : spliceSiblingAt rest tid pos src with
          | some rest' =>
            have h2 := ihrest
            rw [hr] at h2
            cases hfr : findNodeById rest tid with
            | some m => simp
            | none => rw [hfr] at h2; exact absurd h2.symm (by simp)
          | none =>
            have h2 := ihrest
            rw [hr] at h2
            cases hfr : findNodeById rest tid with
            | some m => rw [hfr] at h2; exact absurd h2 (by simp)
            | none => simp

/-- The sibling splice only adds the moved subtree's ids. -/
theorem splice_ids (tid : Nat) (src : Node) (pos : MovePos) :
    ∀ (f f' : Forest), spliceSiblingAt f tid pos src = some f' →
      f'.ids.Perm (f.ids ++ src.subIds) := by
  intro f
  induction f using Forest.inductionOn with
  | hnil => intro f' h; exact absurd h (by simp [spliceSiblingAt])
  | hcons c cs rest ihcs ihrest =>
    intro f' h
    simp only [spliceSiblingAt] at h
    by_cases hc : c.id = tid
    · rw [if_pos hc] at h
      by_cases hp : pos = .after
      · rw [if_pos hp] at h
        cases h
        rw [Forest.ids_cons, Forest.ids_cons, Forest.ids_cons]
        rw [← List.append_assoc]
        exact appendRotatePerm (Node.mk c cs).subIds src.subIds rest.ids
      · rw [if_neg hp] at h
        cases h
        rw [Forest.ids_cons, Forest.ids_cons]
        exact List.perm_append_comm
    · rw [if_neg hc] at h
      cases hcs : spliceSiblingAt cs tid pos src with
      | some cs' =>
        rw [hcs] at h
        cases h
        have ih := ihcs cs' hcs
        simp only [Forest.ids, List.cons_append]
        refine List.Perm.cons c.id ?_
        exact (ih.append_right rest.ids).trans (appendRotatePerm cs.ids src.subIds rest.ids)
      | none =>
        rw [hcs] at h
        cases hr : spliceSiblingAt rest tid pos src with
        | some rest' =>
          rw [hr] at h
          cases h
          have ih := ihrest rest' hr
          simp only [Forest.ids, List.cons_append]
          refine List.Perm.cons c.id ?_
          exact (ih.append_left cs.ids).trans (by rw [← List.append_assoc])
        | none => rw [hr] at h; exact absurd h (by simp)

/-- Splicing a subtree that does not contain the target id does not move
the target's containing-sequence context. -/
theorem splice_ctx (tid : Nat) (src : Node) (pos : MovePos) (hno : tid ∉ src.subIds) :
    ∀ (f f' : Forest) (p : Option Nat) (l : Nat),
      spliceSiblingAt f tid pos src = some f' →
      ctxOf p l f' tid = ctxOf p l f tid := by
  cases src with
  | mk d ds =>
    simp only [Node.subIds, Node.id, Node.core, Node.children, List.mem_cons] at hno
    push_neg at hno
    obtain ⟨hdne, hdsno⟩ := hno
    intro f
    induction f using Forest.inductionOn with
    | hnil => intro f' p l h; exact absurd h (by simp [spliceSiblingAt])
    | hcons c cs rest ihcs ihrest =>
      intro f' p l h
      simp only [spliceSiblingAt] at h
      by_cases hc : c.id = tid
      · rw [if_pos hc] at h
        by_cases hp : pos = .after
        · rw [if_pos hp] at h
          cases h
          simp only [ctxOf, if_pos hc]
        · rw [if_neg hp] at h
          cases h
          simp only [ctxOf, if_pos hc]
          rw [if_neg (fun hh : d.id = tid => hdne hh.symm)]
          rw [ctx_none_of_not_mem tid ds (some d.id) (d.level + 1) hdsno]
      · rw [if_neg hc] at h
        cases hcs : spliceSiblingAt cs tid pos (.mk d ds) with
        | some cs' =>
          rw [hcs] at h
          cases h
          simp only [ctxOf, if_neg hc]
          rw [ihcs cs' (some c.id) (c.level + 1) hcs]
        | none =>
          rw [hcs] at h
          cases hr : spliceSiblingAt rest tid pos (.mk d ds) with
          | some rest' =>
            rw [hr] at h
            cases h
            simp only [ctxOf, if_neg hc]
            rw [ihrest rest' p l hr]
          | none => rw [hr] at h; exact absurd h (by simp)

/-- The post-splice field fix-up of `moveNode`'s sibling branch commutes
with the splice: relabelling the just-inserted node (reached again as
the first preorder occurrence of its id, which is fresh for the rest of
the forest) equals splicing the relabelled node in the first place. -/
theorem splice_relabel_fused (tid : Nat) (src : Node) (pos : MovePos)
    (np : Option Nat) (nl : Nat) :
    ∀ (f f' : Forest), src.id ∉ f.ids → spliceSiblingAt f tid pos src = some f' →
      spliceSiblingAt f tid pos
          (updateNodeLevels (Node.mk { src.core with parentId := np } src.children) nl) =
          some (relabelAt f' src.id np nl) := by
  intro f
  induction f using Forest.inductionOn with
  | hnil => intro f' _ h; exact absurd h (by simp [spliceSiblingAt])
  | hcons c cs rest ihcs ihrest =>
    intro f' hfresh h
    simp only [Forest.ids, List.mem_cons, List.mem_append] at hfresh
    push_neg at hfresh
    obtain ⟨hne, hnotcs, hnotrest⟩ := hfresh
    simp only [spliceSiblingAt] at h
    by_cases hc : c.id = tid
    · rw [if_pos hc] at h
      by_cases hp : pos = .after
      · rw [if_pos hp] at h
        cases h
        simp only [spliceSiblingAt, if_pos hc, if_pos hp]
        cases hsrc : src with
        | mk d ds =>
          have hdne : ¬ c.id = d.id := by rw [hsrc] at hne; exact fun hh => hne (by simp [Node.id, Node.core, hh])
          have hdnotcs : d.id ∉ cs.ids := by rw [hsrc] at hnotcs; exact hnotcs
          simp only [relabelAt, Node.id, Node.core, Node.children,
            if_neg (fun hh : c.id = d.id => hdne hh),
            find_eq_none_of_not_mem d.id cs hdnotcs, Option.isSome_none, Bool.false_eq_true,
            if_false]
          simp
      · rw [if_neg hp] at h
        cases h
        simp only [spliceSiblingAt, if_pos hc, if_neg hp]
        cases hsrc : src with
        | mk d ds =>
          simp only [relabelAt, Node.id, Node.core, Node.children]
          simp
    · rw [if_neg hc] at h
      cases hcs : spliceSiblingAt cs tid pos src with
      | some cs' =>
        rw [hcs] at h
        cases h
        have hmem : src.id ∈ cs'.ids :=
          (splice_ids tid src pos cs cs' hcs).mem_iff.mpr (by simp [Node.subIds])
        have hrel := ihcs cs' hnotcs hcs
        simp only [spliceSiblingAt, if_neg hc, hrel]
        simp only [relabelAt, if_neg (fun hh : c.id = src.id => hne hh.symm),
          find_isSome_of_mem src.id cs' hmem, if_true]
      | none =>
        rw [hcs] at h
        cases hr : spliceSiblingAt rest tid pos src with
        | some rest' =>
          rw [hr] at h
          cases h
          have hrel := ihrest rest' hnotrest hr
          have hnone : spliceSiblingAt cs tid pos
              (updateNodeLevels (Node.mk { src.core with parentId := np } src.children) nl) = none := by
            cases hsp : spliceSiblingAt cs tid pos
                (updateNodeLevels (Node.mk { src.core with parentId := np } src.children) nl) with
            | none => rfl
            | some x =>
              have h1 : (spliceSiblingAt cs tid pos
                  (updateNodeLevels (Node.mk { src.core with parentId := np } src.children) nl)).isSome = true := by
                rw [hsp]; rfl
              rw [splice_isSome_eq_find, ← splice_isSome_eq_find tid src pos, hcs] at h1
              exact absurd h1 (by simp)
          simp only [spliceSiblingAt, if_neg hc, hnone, hrel]
          simp only [relabelAt, if_neg (fun hh : c.id = src.id => hne hh.symm),
            find_eq_none_of_not_mem src.id cs hnotcs, Option.isSome_none, Bool.false_eq_true,
            if_false]
        | none => rw [hr] at h; exact absurd h (by simp)

/-- Splicing a node whose `parentId`/`level` agree with the target's
containing-sequence context, and whose subtree is internally sound,
preserves hierarchy soundness. -/
theorem splice_levelsOk (tid : Nat) (m : Node) (pos : MovePos) :
    ∀ (f f' : Forest) (p : Option Nat) (l : Nat) (pc : Option Nat) (lc : Nat),
      levelsOkB p l f = true → ctxOf p l f tid = some (pc, lc) →
      m.parentId = pc → m.level = lc →
      levelsOkB (some m.id) (m.level + 1) m.children = true →
      spliceSiblingAt f tid pos m = some f' → levelsOkB p l f' = true := by
  intro f
  induction f using Forest.inductionOn with
  | hnil => intro f' p l pc lc _ hctx _ _ _ _; exact absurd hctx (by simp [ctxOf])
  | hcons c cs rest ihcs ihrest =>
    intro f' p l pc lc hok hctx hmp hml hmint h
    simp only [levelsOkB, Bool.and_eq_true, beq_iff_eq] at hok
    obtain ⟨⟨⟨hpid, hlvl⟩, hokcs⟩, hokrest⟩ := hok
    simp only [ctxOf] at hctx
    simp only [spliceSiblingAt] at h
    by_cases hc : c.id = tid
    · rw [if_pos hc] at hctx
      cases hctx
      rw [if_pos hc] at h
      by_cases hp : pos = .after
      · rw [if_pos hp] at h
        cases h
        simp only [levelsOkB_cons, Bool.and_eq_true, beq_iff_eq]
        refine ⟨⟨⟨hpid, hlvl⟩, hokcs⟩, ⟨⟨⟨hmp, hml⟩, ?_⟩, hokrest⟩⟩
        rw [← hml]
        exact hmint
      · rw [if_neg hp] at h
        cases h
        rw [levelsOkB_cons]
        simp only [Bool.and_eq_true, beq_iff_eq]
        refine ⟨⟨⟨hmp, hml⟩, ?_⟩, ?_⟩
        · rw [← hml]; exact hmint
        · simp only [levelsOkB, Bool.and_eq_true, beq_iff_eq]
          exact ⟨⟨⟨hpid, hlvl⟩, hokcs⟩, hokrest⟩
    · rw [if_neg hc] at hctx
      rw [if_neg hc] at h
      cases hcs : spliceSiblingAt cs tid pos m with
      | some cs' =>
        rw [hcs] at h
        cases h
        have hcsctx : (ctxOf (some c.id) (c.level + 1) cs tid).isSome = true := by
          rw [ctx_isSome_eq_find_isSome, ← splice_isSome_eq_find tid m pos, hcs]
          rfl
        cases hcx : ctxOf (some c.id) (c.level + 1) cs tid with
        | none => rw [hcx] at hcsctx; exact absurd hcsctx (by simp)
        | some r =>
          rw [hcx] at hctx
          cases hctx
          have hcx' : ctxOf (some c.id) (l + 1) cs tid = some (pc, lc) := by
            rw [← hlvl]; exact hcx
          simp only [levelsOkB, Bool.and_eq_true, beq_iff_eq]
          exact ⟨⟨⟨hpid, hlvl⟩, ihcs cs' (some c.id) (l + 1) pc lc hokcs hcx' hmp hml hmint hcs⟩,
            hokrest⟩
      | none =>
        rw [hcs] at h
        have hcsnone : ctxOf (some c.id) (c.level + 1) cs tid = none := by
          cases hcx : ctxOf (some c.id) (c.level + 1) cs tid with
          | none => rfl
          | some r =>
            have h1 : (ctxOf (some c.id) (c.level + 1) cs tid).isSome = true := by rw [hcx]; rfl
            rw [ctx_isSome_eq_find_isSome, ← splice_isSome_eq_find tid m pos, hcs] at h1
            exact absurd h1 (by simp)
        rw [hcsnone] at hctx
        cases hr : spliceSiblingAt rest tid pos m with
        | some rest' =>
          rw [hr] at h
          cases h
          simp only [levelsOkB, Bool.and_eq_true, beq_iff_eq]
          exact ⟨⟨⟨hpid, hlvl⟩, hokcs⟩,
            ihrest rest' p l pc lc hokrest hctx hmp hml hmint hr⟩
        | none => rw [hr] at h; exact absurd h (by simp)

/-- `moveNode` preserves forest validity and introduces no new ids, on
every input (including rejected and descendant-target moves). -/
theorem moveNode_preserves (f : Forest) (nodeId targetId : Nat) (mode : MoveMode)
    (pos : MovePos) (hv : ValidForest f) :
    ValidForest (moveNode f nodeId targetId mode pos).1 ∧
      ∀ i ∈ (moveNode f nodeId targetId mode pos).1.ids, i ∈ f.ids := by
  obtain ⟨hlev, hnd⟩ := hv
  by_cases heq : nodeId = targetId
  · simp only [moveNode, if_pos heq]
    exact ⟨⟨hlev, hnd⟩, fun i hi => hi⟩
  · cases hext : extractNode f nodeId with
    | none =>
      simp only [moveNode, if_neg heq, hext]
      exact ⟨⟨hlev, hnd⟩, fun i hi => hi⟩
    | some pr =>
      cases pr with
      | mk rest src =>
        have hperm : f.ids.Perm (src.subIds ++ rest.ids) :=
          extractNode_perm nodeId f rest src hext
        have hndsplit : (src.subIds ++ rest.ids).Nodup := (hperm.nodup_iff).mp hnd
        obtain ⟨hndsrc, hndrest, hdisj⟩ := List.nodup_append.mp hndsplit
        have hsrcfresh : src.id ∉ rest.ids := hdisj (by simp [Node.subIds])
        obtain ⟨hrestlev, hsrcint⟩ :=
          extractNode_levelsOk nodeId f none 1 rest src hlev hext
        have hsrcid : src.id = nodeId := extractNode_id nodeId f rest src hext
        have hrestmem : ∀ i ∈ rest.ids, i ∈ f.ids := fun i hi =>
          hperm.mem_iff.mpr (List.mem_append.mpr (Or.inr hi))
        have hrestgood : ValidForest rest ∧ ∀ i ∈ rest.ids, i ∈ f.ids :=
          ⟨⟨hrestlev, hndrest⟩, hrestmem⟩
        cases hft : findNodeById f targetId with
        | none =>
          simp only [moveNode, if_neg heq, hext, hft]
          exact ⟨⟨hlev, hnd⟩, fun i hi => hi⟩
        | some tgt =>
          by_cases hdesc : (findNodeById src.children targetId).isSome = true
          · simp only [moveNode, if_neg heq, hext, hft, hdesc]
            simpa using hrestgood
          · have hnosub : targetId ∉ src.subIds := by
              simp only [Node.subIds, List.mem_cons]
              push_neg
              refine ⟨fun hh => heq (by rw [← hsrcid, hh]), fun hh => hdesc ?_⟩
              exact find_isSome_of_mem targetId src.children hh
            have htgtf : targetId ∈ f.ids :=
              (find_isSome_iff_mem targetId f).mp (by rw [hft]; rfl)
            have htgtrest : targetId ∈ rest.ids := by
              rcases List.mem_append.mp (hperm.mem_iff.mp htgtf) with h | h
              · exact absurd h hnosub
              · exact h
            cases mode with
            | child =>
              cases hpush : pushChildAt rest targetId src with
              | some f' =>
                simp only [moveNode, if_neg heq, hext, hft, hdesc, hpush]
                have hlinked : linkedOkB (some src.id) src.children = true :=
                  linkedOk_of_levelsOk src.children (some src.id) (src.level + 1) hsrcint
                have hids := pushChildAt_ids targetId src rest f' hpush
                have hpermf : f'.ids.Perm f.ids :=
                  hids.trans (List.perm_append_comm.trans hperm.symm)
                refine ⟨⟨?_, ?_⟩, ?_⟩
                · simp only [Bool.false_eq_true, if_false]
                  exact pushChildAt_levelsOk targetId src hlinked rest f' none 1 hrestlev hpush
                · simp only [Bool.false_eq_true, if_false]
                  exact (hpermf.nodup_iff).mpr hnd
                · intro i hi
                  simp only [Bool.false_eq_true, if_false] at hi
                  exact hpermf.mem_iff.mp hi
              | none =>
                simp only [moveNode, if_neg heq, hext, hft, hdesc, hpush]
                simpa using hrestgood
            | sibling =>
              cases hsp : spliceSiblingAt rest targetId pos src with
              | none =>
                simp only [moveNode, if_neg heq, hext, hft, hdesc, hsp]
                simpa using hrestgood
              | some inserted =>
                have hinsids := splice_ids targetId src pos rest inserted hsp
                have hinsperm : inserted.ids.Perm f.ids :=
                  hinsids.trans (List.perm_append_comm.trans hperm.symm)
                have hinsnd : inserted.ids.Nodup := (hinsperm.nodup_iff).mpr hnd
                have htgtins : targetId ∈ inserted.ids :=
                  hinsids.mem_iff.mpr (List.mem_append.mpr (Or.inl htgtrest))
                have hctxI : (ctxOf none 1 inserted targetId).isSome = true := by
                  rw [ctx_isSome_eq_find_isSome]
                  exact find_isSome_of_mem targetId inserted htgtins
                cases hcx : ctxOf none 1 inserted targetId with
                | none => rw [hcx] at hctxI; exact absurd hctxI (by simp)
                | some r =>
                  cases r with
                  | mk pc lc =>
                    have hcoh := findParent_coherent targetId inserted none 1 pc lc hinsnd hcx
                    have hctxR : ctxOf none 1 rest targetId = some (pc, lc) := by
                      rw [← splice_ctx targetId src pos hnosub rest inserted none 1 hsp]
                      exact hcx
                    cases hfp : findParentNode inserted targetId with
                    | some q =>
                      rw [hfp] at hcoh
                      obtain ⟨hpc, hlc⟩ := hcoh
                      by_cases hcond : src.parentId ≠ some q.id ∨ src.level ≠ q.level + 1
                      · simp only [moveNode, if_neg heq, hext, hft, hdesc, hsp, hfp]
                        simp only [Option.isNone_some, Bool.false_eq_true, if_false]
                        rw [show Option.map Node.id (some q) = some q.id from rfl]
                        rw [if_pos hcond]
                        have hfused := splice_relabel_fused targetId src pos (some q.id)
                          (q.level + 1) rest inserted hsrcfresh hsp
                        have hlinked : linkedOkB (some src.id) src.children = true :=
                          linkedOk_of_levelsOk src.children (some src.id) (src.level + 1) hsrcint
                        have hmint : levelsOkB
                            (some (updateNodeLevels (Node.mk { src.core with parentId := some q.id } src.children) (q.level + 1)).id)
                            ((updateNodeLevels (Node.mk { src.core with parentId := some q.id } src.children) (q.level + 1)).level + 1)
                            (updateNodeLevels (Node.mk { src.core with parentId := some q.id } src.children) (q.level + 1)).children = true := by
                          simp only [updateNodeLevels, Node.id, Node.core, Node.children, Node.level]
                          exact levelsOk_setLevels src.children _ _ (by simpa [Node.id, Node.core, Node.children] using hlinked)
                        have hmlev := splice_levelsOk targetId
                          (updateNodeLevels (Node.mk { src.core with parentId := some q.id } src.children) (q.level + 1)) pos
                          rest (relabelAt inserted src.id (some q.id) (q.level + 1)) none 1 pc lc
                          hrestlev hctxR (by simp [updateNodeLevels, Node.parentId, Node.core, hpc])
                          (by simp [updateNodeLevels, Node.level, Node.core, hlc]) hmint hfused
                        have hmids := splice_ids targetId
                          (updateNodeLevels (Node.mk { src.core with parentId := some q.id } src.children) (q.level + 1)) pos
                          rest (relabelAt inserted src.id (some q.id) (q.level + 1)) hfused
                        have hsubeq : (updateNodeLevels (Node.mk { src.core with parentId := some q.id } src.children) (q.level + 1)).subIds = src.subIds := by
                          simp [Node.subIds, updateNodeLevels, Node.id, Node.core, Node.children, setLevels_ids]
                        rw [hsubeq] at hmids
                        have hrelperm : (relabelAt inserted src.id (some q.id) (q.level + 1)).ids.Perm f.ids :=
                          hmids.trans (List.perm_append_comm.trans hperm.symm)
                        exact ⟨⟨hmlev, (hrelperm.nodup_iff).mpr hnd⟩,
                          fun i hi => hrelperm.mem_iff.mp hi⟩
                      · simp only [moveNode, if_neg heq, hext, hft, hdesc, hsp, hfp]
                        simp only [Option.isNone_some, Bool.false_eq_true, if_false]
                        rw [show Option.map Node.id (some q) = some q.id from rfl]
                        rw [if_neg hcond]
                        push_neg at hcond
                        obtain ⟨hc1, hc2⟩ := hcond
                        have hmlev := splice_levelsOk targetId src pos rest inserted none 1 pc lc
                          hrestlev hctxR (by rw [hc1, hpc]) (by rw [hc2, hlc])
                          (by rw [hc2] at hsrcint; rw [hc2]; exact hsrcint) hsp
                        exact ⟨⟨hmlev, hinsnd⟩, fun i hi => hinsperm.mem_iff.mp hi⟩
                    | none =>
                      rw [hfp] at hcoh
                      obtain ⟨hpc, hlc⟩ := hcoh
                      by_cases hcond : src.parentId ≠ none ∨ src.level ≠ 1
                      · simp only [moveNode, if_neg heq, hext, hft, hdesc, hsp, hfp]
                        simp only [Option.isNone_some, Bool.false_eq_true, if_false]
                        rw [show Option.map Node.id (none : Option Node) = none from rfl]
                        rw [if_pos hcond]
                        have hfused := splice_relabel_fused targetId src pos none 1 rest inserted
                          hsrcfresh hsp
                        have hlinked : linkedOkB (some src.id) src.children = true :=
                          linkedOk_of_levelsOk src.children (some src.id) (src.level + 1) hsrcint
                        have hmint : levelsOkB
                            (some (updateNodeLevels (Node.mk { src.core with parentId := none } src.children) 1).id)
                            ((updateNodeLevels (Node.mk { src.core with parentId := none } src.children) 1).level + 1)
                            (updateNodeLevels (Node.mk { src.core with parentId := none } src.children) 1).children = true := by
                          simp only [updateNodeLevels, Node.id, Node.core, Node.children, Node.level]
                          exact levelsOk_setLevels src.children _ _ (by simpa [Node.id, Node.core, Node.children] using hlinked)
                        have hmlev := splice_levelsOk targetId
                          (updateNodeLevels (Node.mk { src.core with parentId := none } src.children) 1) pos
                          rest (relabelAt inserted src.id none 1) none 1 pc lc
                          hrestlev hctxR (by simp [updateNodeLevels, Node.parentId, Node.core, hpc])
                          (by simp [updateNodeLevels, Node.level, Node.core, hlc]) hmint hfused
                        have hmids := splice_ids targetId
                          (updateNodeLevels (Node.mk { src.core with parentId := none } src.children) 1) pos
                          rest (relabelAt inserted src.id none 1) hfused
                        have hsubeq : (updateNodeLevels (Node.mk { src.core with parentId := none } src.children) 1).subIds = src.subIds := by
                          simp [Node.subIds, updateNodeLevels, Node.id, Node.core, Node.children, setLevels_ids]
                        rw [hsubeq] at hmids
                        have hrelperm : (relabelAt inserted src.id none 1).ids.Perm f.ids :=
                          hmids.trans (List.perm_append_comm.trans hperm.symm)
                        exact ⟨⟨hmlev, (hrelperm.nodup_iff).mpr hnd⟩,
                          fun i hi => hrelperm.mem_iff.mp hi⟩
                      · simp only [moveNode, if_neg heq, hext, hft, hdesc, hsp, hfp]
                        simp only [Option.isNone_some, Bool.false_eq_true, if_false]
                        rw [show Option.map Node.id (none : Option Node) = none from rfl]
                        rw [if_neg hcond]
                        push_neg at hcond
                        obtain ⟨hc1, hc2⟩ := hcond
                        have hmlev := splice_levelsOk targetId src pos rest inserted none 1 pc lc
                          hrestlev hctxR (by rw [hc1, hpc]) (by rw [hc2, hlc])
                          (by rw [hc2] at hsrcint; rw [hc2]; exact hsrcint) hsp
                        exact ⟨⟨hmlev, hinsnd⟩, fun i hi => hinsperm.mem_iff.mp hi⟩

/-- Sibling insertion preserves hierarchy soundness and adds exactly the
fresh id. -/
theorem addSiblingIn_preserves (tid : Nat) (title : Str) (newId : Nat) :
    ∀ (f f' : Forest) (created : Node) (p : Option Nat) (l : Nat),
      levelsOkB p l f = true → addSiblingIn p tid title newId f = some (f', created) →
      levelsOkB p l f' = true ∧ f'.ids.Perm (newId :: f.ids) := by
  intro f
  induction f using Forest.inductionOn with
  | hnil => intro f' created p l _ h; exact absurd h (by simp [addSiblingIn])
  | hcons c cs rest ihcs ihrest =>
    intro f' created p l hok h
    simp only [levelsOkB, Bool.and_eq_true, beq_iff_eq] at hok
    obtain ⟨⟨⟨hpid, hlvl⟩, hokcs⟩, hokrest⟩ := hok
    simp only [addSiblingIn] at h
    by_cases hc : c.id = tid
    · rw [if_pos hc] at h
      cases h
      constructor
      · simp [levelsOkB, hpid, hlvl, hokcs, hokrest]
      · simp only [Forest.ids, List.nil_append]
        refine List.Perm.trans (List.Perm.cons c.id ?_) (List.Perm.swap newId c.id _)
        exact List.perm_middle
    · rw [if_neg hc] at h
      cases hcs : addSiblingIn (some c.id) tid title newId cs with
      | some pr =>
        rw [hcs] at h
        cases h
        obtain ⟨h1, h2⟩ := ihcs pr.1 pr.2 (some c.id) (l + 1) hokcs hcs
        constructor
        · simp only [levelsOkB, Bool.and_eq_true, beq_iff_eq]
          exact ⟨⟨⟨hpid, hlvl⟩, h1⟩, hokrest⟩
        · simp only [Forest.ids]
          refine List.Perm.trans (List.Perm.cons c.id ?_) (List.Perm.swap newId c.id _)
          exact (h2.append_right rest.ids).trans (by simp)
      | none =>
        rw [hcs] at h
        cases hr : addSiblingIn p tid title newId rest with
        | some pr =>
          rw [hr] at h
          cases h
          obtain ⟨h1, h2⟩ := ihrest pr.1 pr.2 p l hokrest hr
          constructor
          · simp only [levelsOkB, Bool.and_eq_true, beq_iff_eq]
            exact ⟨⟨⟨hpid, hlvl⟩, hokcs⟩, h1⟩
          · simp only [Forest.ids]
            refine List.Perm.trans (List.Perm.cons c.id ?_) (List.Perm.swap newId c.id _)
            exact (h2.append_left cs.ids).trans List.perm_middle
        | none => rw [hr] at h; exact absurd h (by simp)

/-- Child insertion preserves hierarchy soundness and adds exactly the
fresh id. -/
theorem addChildIn_preserves (tid : Nat) (title : Str) (newId : Nat) :
    ∀ (f f' : Forest) (created : Node) (p : Option Nat) (l : Nat),
      levelsOkB p l f = true → addChildIn tid title newId f = some (f', created) →
      levelsOkB p l f' = true ∧ f'.ids.Perm (newId :: f.ids) := by
  intro f
  induction f using Forest.inductionOn with
  | hnil => intro f' created p l _ h; exact absurd h (by simp [addChildIn])
  | hcons c cs rest ihcs ihrest =>
    intro f' created p l hok h
    simp only [levelsOkB, Bool.and_eq_true, beq_iff_eq] at hok
    obtain ⟨⟨⟨hpid, hlvl⟩, hokcs⟩, hokrest⟩ := hok
    simp only [addChildIn] at h
    by_cases hc : c.id = tid
    · rw [if_pos hc] at h
      cases h
      constructor
      · simp [levelsOkB, levelsOkB_append, hpid, hlvl, hokcs, hokrest]
      · simp only [Forest.ids, Forest.ids_append, List.nil_append, List.append_nil]
        refine List.Perm.trans (List.Perm.cons c.id ?_) (List.Perm.swap newId c.id _)
        exact ((appendRotatePerm cs.ids [newId] rest.ids).trans
          List.perm_append_comm).trans (by simp)
    · rw [if_neg hc] at h
      cases hcs : addChildIn tid title newId cs with
      | some pr =>
        rw [hcs] at h
        cases h
        obtain ⟨h1, h2⟩ := ihcs pr.1 pr.2 (some c.id) (l + 1) hokcs hcs
        constructor
        · simp only [levelsOkB, Bool.and_eq_true, beq_iff_eq]
          exact ⟨⟨⟨hpid, hlvl⟩, h1⟩, hokrest⟩
        · simp only [Forest.ids]
          refine List.Perm.trans (List.Perm.cons c.id ?_) (List.Perm.swap newId c.id _)
          exact (h2.append_right rest.ids).trans (by simp)
      | none =>
        rw [hcs] at h
        cases hr : addChildIn tid title newId rest with
        | some pr =>
          rw [hr] at h
          cases h
          obtain ⟨h1, h2⟩ := ihrest pr.1 pr.2 p l hokrest hr
          constructor
          · simp only [levelsOkB, Bool.and_eq_true, beq_iff_eq]
            exact ⟨⟨⟨hpid, hlvl⟩, hokcs⟩, h1⟩
          · simp only [Forest.ids]
            refine List.Perm.trans (List.Perm.cons c.id ?_) (List.Perm.swap newId c.id _)
            exact (h2.append_left cs.ids).trans List.perm_middle
        | none => rw [hr] at h; exact absurd h (by simp)

/-- Root insertion preserves hierarchy soundness and adds exactly the
fresh id. -/
theorem addRootNode_preserves (f : Forest) (title : Str) (newId : Nat)
    (hok : levelsOkB none 1 f = true) :
    levelsOkB none 1 (addRootNode f title newId).1 = true ∧
      (addRootNode f title newId).1.ids.Perm (newId :: f.ids) := by
  constructor
  · simp only [addRootNode, levelsOkB_append, Bool.and_eq_true]
    refine ⟨hok, ?_⟩
    simp [levelsOkB]
  · simp only [addRootNode, Forest.ids_append]
    simp only [Forest.ids, List.append_nil]
    exact List.perm_append_comm.trans (by simp)

/-- One structural mutation of the `MarkdownParser` mutator API: the
insert operations draw their `generateId` result from a counter
(modelling the source's process-unique id generation), delete and move
take ids. -/
inductive MutOp where
  | insSibling (afterId : Nat) (title : Str)
  | insChild (parentId : Nat) (title : Str)
  | insRoot (title : Str)
  | deleteOp (id : Nat)
  | moveOp (id targetId : Nat) (mode : MoveMode) (pos : MovePos)

/-- Apply one mutation to the forest together with the fresh-id counter. -/
def applyOp (s : Forest × Nat) (op : MutOp) : Forest × Nat :=
  match op with
  | .insSibling a t => ((addSiblingNode s.1 a t s.2).1, s.2 + 1)
  | .insChild p t => ((addChildNode s.1 p t s.2).1, s.2 + 1)
  | .insRoot t => ((addRootNode s.1 t s.2).1, s.2 + 1)
  | .deleteOp i => ((deleteNode s.1 i).1, s.2)
  | .moveOp i t m p => ((moveNode s.1 i t m p).1, s.2)

/-- Apply a sequence of mutations left to right. -/
def applyOps (s : Forest × Nat) (ops : List MutOp) : Forest × Nat :=
  ops.foldl applyOp s

/-- A valid mutator state: valid forest, and every id in the forest lies
below the fresh-id counter. -/
def ValidState (s : Forest × Nat) : Prop :=
  ValidForest s.1 ∧ ∀ i ∈ s.1.ids, i < s.2

/-- Every single mutation preserves the mutator-state invariants. -/
theorem applyOp_preserves (s : Forest × Nat) (op : MutOp) (hs : ValidState s) :
    ValidState (applyOp s op) := by
  obtain ⟨⟨hlev, hnd⟩, hbound⟩ := hs
  have hfresh : s.2 ∉ s.1.ids := fun hmem => lt_irrefl s.2 (hbound s.2 hmem)
  cases op with
  | insSibling a t =>
    simp only [applyOp, addSiblingNode]
    cases hins : addSiblingIn none a t s.2 s.1 with
    | none =>
      exact ⟨⟨hlev, hnd⟩, fun i hi => Nat.lt_succ_of_lt (hbound i hi)⟩
    | some pr =>
      obtain ⟨h1, h2⟩ := addSiblingIn_preserves a t s.2 s.1 pr.1 pr.2 none 1 hlev hins
      refine ⟨⟨h1, (h2.nodup_iff).mpr (List.nodup_cons.mpr ⟨hfresh, hnd⟩)⟩, ?_⟩
      intro i hi
      rcases List.mem_cons.mp (h2.mem_iff.mp hi) with hh | hh
      · omega
      · exact Nat.lt_succ_of_lt (hbound i hh)
  | insChild p t =>
    simp only [applyOp, addChildNode]
    cases hins : addChildIn p t s.2 s.1 with
    | none =>
      exact ⟨⟨hlev, hnd⟩, fun i hi => Nat.lt_succ_of_lt (hbound i hi)⟩
    | some pr =>
      obtain ⟨h1, h2⟩ := addChildIn_preserves p t s.2 s.1 pr.1 pr.2 none 1 hlev hins
      refine ⟨⟨h1, (h2.nodup_iff).mpr (List.nodup_cons.mpr ⟨hfresh, hnd⟩)⟩, ?_⟩
      intro i hi
      rcases List.mem_cons.mp (h2.mem_iff.mp hi) with hh | hh
      · omega
      · exact Nat.lt_succ_of_lt (hbound i hh)
  | insRoot t =>
    simp only [applyOp]
    obtain ⟨h1, h2⟩ := addRootNode_preserves s.1 t s.2 hlev
    refine ⟨⟨h1, (h2.nodup_iff).mpr (List.nodup_cons.mpr ⟨hfresh, hnd⟩)⟩, ?_⟩
    intro i hi
    rcases List.mem_cons.mp (h2.mem_iff.mp hi) with hh | hh
    · omega
    · exact Nat.lt_succ_of_lt (hbound i hh)
  | deleteOp i =>
    have hsub := deleteNode_sublist i s.1
    refine ⟨⟨deleteNode_levelsOk i s.1 none 1 hlev, hnd.sublist hsub⟩, ?_⟩
    intro j hj
    exact hbound j (hsub.mem hj)
  | moveOp i t m p =>
    obtain ⟨hvf, hmem⟩ := moveNode_preserves s.1 i t m p ⟨hlev, hnd⟩
    exact ⟨hvf, fun j hj => hbound j (hmem j hj)⟩

/-- C2.  For every sequence of insert (sibling/child/root), delete, and move
operations starting from a valid forest (well-formed levels and parent
links, duplicate-free ids, ids below the fresh-id counter), after each
operation — that is, after every prefix of the sequence — the forest
remains valid: every node's `level` is its parent's plus one (1 for
roots), every node's `parentId` is the id of the node whose `children`
array contains it (`null` for roots), and no identifier appears twice.
Acyclicity (no node its own ancestor) is intrinsic to the inductive
forest representation, over which all the mutators are defined.
-/
theorem mutator_sequence_preserves_invariants (s : Forest × Nat) (ops : List MutOp)
    (hs : ValidState s) :
    ∀ n : Nat, ValidState (applyOps s (ops.take n)) := by
  intro n
  induction ops generalizing s n with
  | nil => simpa [applyOps] using hs
  | cons op ops' ih =>
    cases n with
    | zero => simpa [applyOps] using hs
    | succ m =>
      simp only [List.take_succ_cons, applyOps, List.foldl_cons]
      exact ih (applyOp s op) (applyOp_preserves s op hs) m

/-- C2 (witness).  The invariant theorem applied to the concrete valid state
`([1 [2]], counter 10)` and a concrete operation sequence containing a
cycle-creating move, an insert and a delete.
-/
theorem mutator_sequence_preserves_invariants_witness :
    ValidState (applyOps (pairForest, 10)
      ([MutOp.moveOp 1 2 .child .append, MutOp.insRoot [], MutOp.insSibling 2 [],
        MutOp.deleteOp 1].take 4)) :=
  mutator_sequence_preserves_invariants (pairForest, 10)
    [MutOp.moveOp 1 2 .child .append, MutOp.insRoot [], MutOp.insSibling 2 [],
      MutOp.deleteOp 1] ⟨⟨rfl, by decide⟩, by decide⟩ 4

/-- JS `\s` / `String.prototype.trim` whitespace, restricted to the ASCII
control/space characters (the Unicode space classes that JS also counts
are outside the modelled character set). -/
def isWsChar (ch : Char) : Bool :=
  ch == ' ' || ch == '\t' || ch == '\n' || ch == '\r' || ch == '\x0b' || ch == '\x0c'

/-- JS `String.prototype.trim`: drop whitespace from both ends. -/
def trimChars (s : Str) : Str :=
  ((s.dropWhile isWsChar).reverse.dropWhile isWsChar).reverse

/-- JS `markdown.split('\n')`: split into lines at every newline;
`""` splits to `[""]` and a trailing newline yields a trailing `""`. -/
def splitNl : Str → List Str
  | [] => [[]]
  | ch :: rest =>
    match splitNl rest with
    | [] => [[]]
    | h :: t => if ch = '\n' then [] :: h :: t else (ch :: h) :: t

/-- JS `lines.join('\n')`. -/
def joinNl : List Str → Str
  | [] => []
  | [s] => s
  | s :: rest => s ++ '\n' :: joinNl rest

/-- The heading regex `^(#{1,6})\s+(.+)$` of `MarkdownParser.parse`,
applied to one line: 1–6 marker characters, at least one whitespace
character, then a non-empty remainder that `.` can match entirely (`.`
matches neither `'\n'` nor `'\r'`); when the remainder after the
maximal whitespace run is empty, backtracking lets `\s+` yield its final
character to `(.+)`.  Returns the marker count and the raw captured
title (trimmed later by the caller, as in the source). -/
def headingMatch (line : Str) : Option (Nat × Str) :=
  let k := (line.takeWhile (fun ch => ch == '#')).length
  if 1 ≤ k ∧ k ≤ 6 then
    let rest := line.drop k
    let ws := rest.takeWhile isWsChar
    if ws.length = 0 then none
    else
      let tl := rest.drop ws.length
      if tl ≠ [] then
        if '\n' ∈ tl ∨ '\r' ∈ tl then none
        else some (k, tl)
      else
        if 2 ≤ ws.length ∧ ws.getLast? ≠ some '\r' ∧ ws.getLast? ≠ some '\n' then
          some (k, ws.drop (ws.length - 1))
        else none
  else none

/-- Replace a node's `description` (the only field the parser's
description flush mutates). -/
def setDescription (n : Node) (d : Option Str) : Node :=
  .mk { n.core with description := d } n.children

/-- The parser's description flush: when a current node exists (the
stack is non-empty) and description lines have accumulated, join them
with newlines, trim, and store on the current node (the stack top). -/
def flushDesc (stack : List Node) (descLines : List Str) : List Node :=
  match stack with
  | [] => []
  | top :: rest =>
    if descLines.isEmpty then top :: rest
    else setDescription top (some (trimChars (joinNl descLines))) :: rest

/-- Push a completed child onto a parent's `children`. -/
def appendChild (parent child : Node) : Node :=
  .mk parent.core (parent.children.append (.cons child .nil))

/-- The stack-popping loop of `MarkdownParser.parse`
(`while (stack.length > 0 && top.level >= level) pop`), in the pure
attach-on-pop formulation: a popped node is complete, so it is appended
to the children of the node below it (its creation-time parent), or to
the root list when the stack empties. -/
def popStackGo (lvl : Nat) (roots : Forest) : Node → List Node → Forest × List Node
  | top, [] =>
    if lvl ≤ top.level then (roots.append (.cons top .nil), [])
    else (roots, [top])
  | top, parent :: rest =>
    if lvl ≤ top.level then popStackGo lvl roots (appendChild parent top) rest
    else (roots, top :: parent :: rest)

/-- Pop the stack down to levels strictly below `lvl`. -/
def popStack (roots : Forest) (stack : List Node) (lvl : Nat) : Forest × List Node :=
  match stack with
  | [] => (roots, [])
  | top :: rest => popStackGo lvl roots top rest

/-- One line of `MarkdownParser.parse`: state is (completed roots,
node stack with the current node on top, pending description lines,
fresh-id counter — the source's `generateId` modelled as a counter).
A heading line flushes the pending description to the current node,
pops stack entries of level ≥ the new level, and pushes a fresh node
whose `parentId` is the new stack top's id; a non-blank non-heading
line accumulates (raw) when a current node exists; blank lines are
skipped. -/
def parseLine (st : Forest × List Node × List Str × Nat) (line : Str) :
    Forest × List Node × List Str × Nat :=
  match st with
  | (roots, stack, desc, nid) =>
    match headingMatch line with
    | some (lvl, rawTitle) =>
      let title := trimChars rawTitle
      let stack1 := flushDesc stack desc
      let pr := popStack roots stack1 lvl
      let parentId := pr.2.head?.map Node.id
      let node : Node := .mk ⟨nid, title, none, lvl, false, parentId⟩ .nil
      (pr.1, node :: pr.2, [], nid + 1)
    | none =>
      if !stack.isEmpty && !(trimChars line).isEmpty then (roots, stack, desc ++ [line], nid)
      else (roots, stack, desc, nid)

/-- `MarkdownParser.parse`: split into lines, run the stack builder, make
the final description flush, and pop everything out to the root list. -/
def parse (text : Str) : Forest :=
  let lines := splitNl text
  let st := lines.foldl parseLine (Forest.nil, [], [], 1)
  match st with
  | (roots, stack, desc, _) => (popStack roots (flushDesc stack desc) 0).1

/-- `MarkdownParser.serialize`'s line accumulation: per node, the
heading (`'#'.repeat(level) + ' ' + title`); a blank line and the
description when the description is a non-empty string; a blank line;
then the children, depth first. -/
def serializeLines : Forest → List Str
  | .nil => []
  | .cons (.mk c cs) rest =>
    [List.replicate c.level '#' ++ ' ' :: c.title] ++
      (match c.description with
       | some d => if d.isEmpty then [] else [[], d]
       | none => []) ++ [[]] ++ serializeLines cs ++ serializeLines rest

/-- `MarkdownParser.serialize`: join the lines with newlines and trim. -/
def serialize (f : Forest) : Str := trimChars (joinNl (serializeLines f))

/-- Raw-level hierarchy soundness of a parsed forest: every node's
`parentId` names the owner of its containing array (`none` at the top
level) and every node's `level` strictly exceeds a lower bound — its
parent's raw level (0 at the top level).  This is the parser's actual
guarantee: levels are raw marker counts, not renormalized depths. -/
def hierOkB (p : Option Nat) (lb : Nat) : Forest → Bool
  | .nil => true
  | .cons (.mk c cs) rest =>
    (c.parentId == p) && decide (lb < c.level) && hierOkB (some c.id) c.level cs &&
      hierOkB p lb rest

/-- `hierOkB` distributes over forest append. -/
theorem hierOkB_append (p : Option Nat) (lb : Nat) :
    ∀ f g : Forest, hierOkB p lb (f.append g) = (hierOkB p lb f && hierOkB p lb g) := by
  intro f g
  induction f using Forest.inductionOn with
  | hnil => simp [Forest.append, hierOkB]
  | hcons c cs rest _ ihrest =>
    simp only [Forest.append, hierOkB, ihrest]
    cases c.parentId == p <;> cases decide (lb < c.level) <;>
      cases hierOkB (some c.id) c.level cs <;> cases hierOkB p lb rest <;> simp

/-- Parser stack soundness (stack listed top first): every entry's
accumulated children are hierarchy-sound under it, every entry's level
is positive, and each entry names the entry below it as parent with a
strictly smaller level (the bottom entry has no parent). -/
def stackOkB : List Node → Bool
  | [] => true
  | top :: rest =>
    hierOkB (some top.id) top.level top.children && decide (0 < top.level) &&
      (match rest with
       | [] => top.parentId == none
       | parent :: _ => (top.parentId == some parent.id) && decide (parent.level < top.level)) &&
      stackOkB rest

/-- `setDescription` only changes the description. -/
theorem setDescription_fields (n : Node) (d : Option Str) :
    (setDescription n d).id = n.id ∧ (setDescription n d).level = n.level ∧
      (setDescription n d).parentId = n.parentId ∧
      (setDescription n d).children = n.children := by
  cases n with
  | mk c cs => exact ⟨rfl, rfl, rfl, rfl⟩

/-- The description flush does not disturb stack soundness. -/
theorem flushDesc_stackOk (stack : List Node) (d : List Str)
    (h : stackOkB stack = true) : stackOkB (flushDesc stack d) = true := by
  cases stack with
  | nil => exact h
  | cons top rest =>
    simp only [flushDesc]
    by_cases hd : d.isEmpty
    · rw [if_pos hd]; exact h
    · rw [if_neg hd]
      cases top with
      | mk c cs =>
        simpa [stackOkB, setDescription, Node.id, Node.level, Node.parentId, Node.children,
          Node.core] using h

/-- `popStackGo` keeps the emitted roots and the remaining stack sound,
and leaves a stack whose top (if any) sits strictly below the incoming
level. -/
theorem popStackGo_ok (lvl : Nat) :
    ∀ (rest : List Node) (top : Node) (roots : Forest),
      hierOkB none 0 roots = true → stackOkB (top :: rest) = true →
      hierOkB none 0 (popStackGo lvl roots top rest).1 = true ∧
        stackOkB (popStackGo lvl roots top rest).2 = true ∧
        ∀ n, (popStackGo lvl roots top rest).2.head? = some n → n.level < lvl := by
  intro rest
  induction rest with
  | nil =>
    intro top roots hroots hstack
    simp only [stackOkB, Bool.and_eq_true, beq_iff_eq, decide_eq_true_eq] at hstack
    obtain ⟨⟨⟨htopch, htoplvl⟩, htoppar⟩, _⟩ := hstack
    simp only [popStackGo]
    by_cases hl : lvl ≤ top.level
    · rw [if_pos hl]
      refine ⟨?_, rfl, by simp⟩
      rw [hierOkB_append, Bool.and_eq_true]
      refine ⟨hroots, ?_⟩
      cases top with
      | mk tc tcs =>
        simp only [hierOkB, Bool.and_eq_true, beq_iff_eq, decide_eq_true_eq]
        refine ⟨⟨⟨?_, ?_⟩, ?_⟩, trivial⟩
        · simpa [Node.parentId, Node.core] using htoppar
        · simpa [Node.level, Node.core] using htoplvl
        · simpa [Node.id, Node.level, Node.children, Node.core] using htopch
    · rw [if_neg hl]
      exact ⟨hroots, by simpa [stackOkB, htopch, htoplvl] using htoppar,
        fun n hn => by cases hn; omega⟩
  | cons parent rest' ih =>
    intro top roots hroots hstack
    simp only [stackOkB, Bool.and_eq_true, beq_iff_eq, decide_eq_true_eq] at hstack
    obtain ⟨⟨⟨htopch, htoplvl⟩, ⟨htoppar, htoplt⟩⟩, hrest⟩ := hstack
    simp only [popStackGo]
    by_cases hl : lvl ≤ top.level
    · rw [if_pos hl]
      refine ih (appendChild parent top) roots hroots ?_
      cases parent with
      | mk pc pcs =>
        have hrest' := hrest
        simp only [stackOkB, Bool.and_eq_true, beq_iff_eq, decide_eq_true_eq] at hrest'
        obtain ⟨⟨⟨hpch, hplvl⟩, hppar⟩, hrest''⟩ := hrest'
        simp only [stackOkB, appendChild, Node.id, Node.level, Node.parentId, Node.children,
          Node.core, Bool.and_eq_true, beq_iff_eq, decide_eq_true_eq]
        refine ⟨⟨⟨?_, hplvl⟩, ?_⟩, hrest''⟩
        · rw [hierOkB_append, Bool.and_eq_true]
          refine ⟨hpch, ?_⟩
          cases top with
          | mk tc tcs =>
            simp only [hierOkB, Bool.and_eq_true, beq_iff_eq, decide_eq_true_eq]
            refine ⟨⟨⟨?_, ?_⟩, ?_⟩, trivial⟩
            · simpa [Node.parentId, Node.core, Node.id] using htoppar
            · simpa [Node.level, Node.core] using htoplt
            · simpa [Node.id, Node.level, Node.children, Node.core] using htopch
        · exact hppar
    · rw [if_neg hl]
      refine ⟨hroots, ?_, fun n hn => by cases hn; omega⟩
      simp only [stackOkB, Bool.and_eq_true, beq_iff_eq, decide_eq_true_eq]
      exact ⟨⟨⟨htopch, htoplvl⟩, ⟨htoppar, htoplt⟩⟩, hrest⟩

/-- Unfolding lemma: stack soundness of a two-deep stack. -/
theorem stackOkB_cons_cons (n parent : Node) (rest : List Node) :
    stackOkB (n :: parent :: rest) =
      (hierOkB (some n.id) n.level n.children && decide (0 < n.level) &&
        ((n.parentId == some parent.id) && decide (parent.level < n.level)) &&
        stackOkB (parent :: rest)) := rfl

/-- A matched heading has at least one marker character. -/
theorem headingMatch_pos (line : Str) (k : Nat) (t : Str)
    (h : headingMatch line = some (k, t)) : 1 ≤ k := by
  simp only [headingMatch] at h
  split at h
  case isTrue hguard =>
    split at h
    case isTrue => exact absurd h (by simp)
    case isFalse =>
      split at h
      case isTrue =>
        split at h
        case isTrue => exact absurd h (by simp)
        case isFalse => cases h; exact hguard.1
      case isFalse =>
        split at h
        case isTrue => cases h; exact hguard.1
        case isFalse => exact absurd h (by simp)
  case isFalse => exact absurd h (by simp)

/-- The parser-state invariant: sound roots, sound stack. -/
def ParseStateOk (st : Forest × List Node × List Str × Nat) : Prop :=
  hierOkB none 0 st.1 = true ∧ stackOkB st.2.1 = true

/-- Each parsed line preserves the parser-state invariant. -/
theorem parseLine_ok (st : Forest × List Node × List Str × Nat) (line : Str)
    (h : ParseStateOk st) : ParseStateOk (parseLine st line) := by
  obtain ⟨roots, stack, desc, nid⟩ := st
  obtain ⟨hroots, hstack⟩ := h
  simp only [ParseStateOk] at hroots hstack ⊢
  cases hm : headingMatch line with
  | none =>
    simp only [parseLine, hm]
    split
    · exact ⟨hroots, hstack⟩
    · exact ⟨hroots, hstack⟩
  | some pr =>
    cases pr with
    | mk lvl raw =>
      have hlvl1 : 1 ≤ lvl := headingMatch_pos line lvl raw hm
      simp only [parseLine, hm]
      have hflush : stackOkB (flushDesc stack desc) = true :=
        flushDesc_stackOk stack desc hstack
      cases hstack1 : flushDesc stack desc with
      | nil =>
        simp only [popStack]
        refine ⟨hroots, ?_⟩
        simp [stackOkB, hierOkB, Node.id, Node.level, Node.parentId, Node.children, Node.core,
          hlvl1] <;> omega
      | cons top rest =>
        rw [hstack1] at hflush
        obtain ⟨hr, hs, hhd⟩ := popStackGo_ok lvl rest top roots hroots hflush
        simp only [popStack]
        refine ⟨hr, ?_⟩
        cases hres : (popStackGo lvl roots top rest).2 with
        | nil =>
          simp [stackOkB, hierOkB, Node.id, Node.level, Node.parentId, Node.children,
            Node.core, hlvl1, hres] <;> omega
        | cons parent rest2 =>
          rw [hres] at hs
          have hplt : parent.level < lvl := hhd parent (by rw [hres]; rfl)
          simp only [hres, List.head?]
          rw [stackOkB_cons_cons]
          simp only [Bool.and_eq_true, beq_iff_eq, decide_eq_true_eq]
          refine ⟨⟨⟨rfl, hlvl1⟩, ⟨rfl, hplt⟩⟩, hs⟩

/-- Every parsed forest is hierarchy-sound in the raw-level sense. -/
theorem parse_hierOk (text : Str) : hierOkB none 0 (parse text) = true := by
  have hfold : ParseStateOk ((splitNl text).foldl parseLine (Forest.nil, [], [], 1)) := by
    have hgen : ∀ (ls : List Str) (st : Forest × List Node × List Str × Nat),
        ParseStateOk st → ParseStateOk (ls.foldl parseLine st) := by
      intro ls
      induction ls with
      | nil => intro st h; exact h
      | cons l ls' ih => intro st h; exact ih (parseLine st l) (parseLine_ok st l h)
    exact hgen (splitNl text) (Forest.nil, [], [], 1) ⟨rfl, rfl⟩
  rcases hst : (splitNl text).foldl parseLine (Forest.nil, [], [], 1) with
    ⟨roots, stack, desc, nid⟩
  rw [hst] at hfold
  obtain ⟨hroots, hstack⟩ := hfold
  simp only [parse, hst]
  have hflush := flushDesc_stackOk stack desc hstack
  cases hfd : flushDesc stack desc with
  | nil => simpa [popStack] using hroots
  | cons top rest =>
    rw [hfd] at hflush
    obtain ⟨hr, _, _⟩ := popStackGo_ok 0 rest top roots hroots hflush
    simpa [popStack] using hr

/-- C10.  For every input text, `parse` returns a forest in which every
non-root node's `parentId` is the id of the node whose `children` array
contains it (`none` for roots) and every node's `level` strictly
exceeds its parent's (each heading attaches to the nearest preceding
heading of strictly smaller level) — but levels are the raw marker
counts: parsing `"## A"` yields a root at level 2 (not 1), and parsing
`"# A\n### B"` yields a child at level 3 under a parent at level 1
(not parent.level + 1).
-/
theorem parse_structure_invariant :
    (∀ text : Str, hierOkB none 0 (parse text) = true) ∧
    parse ("## A".toList) = .cons (.mk ⟨1, ['A'], none, 2, false, none⟩ .nil) .nil ∧
    parse ("# A\n### B".toList) =
      .cons (.mk ⟨1, ['A'], none, 1, false, none⟩
        (.cons (.mk ⟨2, ['B'], none, 3, false, some 1⟩ .nil) .nil)) .nil :=
  ⟨parse_hierOk, rfl, rfl⟩

/-- `dropWhile` yields a suffix. -/
theorem dropWhile_isSuffix (p : Char → Bool) :
    ∀ l : Str, (l.dropWhile p).IsSuffix l := by
  intro l
  induction l with
  | nil => simp [List.dropWhile]
  | cons a l' ih =>
    simp only [List.dropWhile]
    by_cases hp : p a
    · rw [hp]
      exact ih.trans (List.suffix_cons a l')
    · simp only [Bool.not_eq_true] at hp
      rw [hp]

/-- A list fixed by `dropWhile` starts with a failing element (or is
empty). -/
theorem head_of_dropWhile_eq_self (p : Char → Bool) (l : Str)
    (h : l.dropWhile p = l) : ∀ c ls, l = c :: ls → p c = false := by
  intro c ls hl
  subst hl
  simp only [List.dropWhile] at h
  by_cases hp : p c
  · rw [hp] at h
    have := (dropWhile_isSuffix p ls).length_le
    have hlen := congrArg List.length h
    simp at hlen
    omega
  · simpa using hp

/-- A trim fixed point is fixed by both one-sided whitespace drops. -/
theorem trim_fixed_both (t : Str) (h : trimChars t = t) :
    t.dropWhile isWsChar = t ∧ t.reverse.dropWhile isWsChar = t.reverse := by
  have h1 : (t.dropWhile isWsChar).length ≤ t.length :=
    (dropWhile_isSuffix isWsChar t).length_le
  have h2 : ((t.dropWhile isWsChar).reverse.dropWhile isWsChar).length ≤
      (t.dropWhile isWsChar).length := by
    have := (dropWhile_isSuffix isWsChar (t.dropWhile isWsChar).reverse).length_le
    simpa using this
  have hlen : t.length = ((t.dropWhile isWsChar).reverse.dropWhile isWsChar).length := by
    conv_lhs => rw [← h]
    simp [trimChars]
  have hu : t.dropWhile isWsChar = t :=
    (dropWhile_isSuffix isWsChar t).eq_of_length (by omega)
  refine ⟨hu, ?_⟩
  rw [hu] at hlen
  exact (dropWhile_isSuffix isWsChar t.reverse).eq_of_length (by simpa using hlen.symm)

/-- Dropping whitespace at the head of a non-whitespace-headed list is
the identity, whatever follows. -/
theorem dropWhile_cons_false (p : Char → Bool) (c : Char) (l : Str) (h : p c = false) :
    (c :: l).dropWhile p = c :: l := by
  simp [List.dropWhile, h]

/-- Trimming `X ++ "\n"` returns `X` when `X` neither starts nor ends
with whitespace. -/
theorem trim_append_newline (X : Str) (c d : Char) (l m : Str)
    (hx : X = c :: l) (hrev : X.reverse = d :: m)
    (hc : isWsChar c = false) (hd : isWsChar d = false) :
    trimChars (X ++ ['\n']) = X := by
  have h1 : (X ++ ['\n']).dropWhile isWsChar = X ++ ['\n'] := by
    rw [hx]
    exact dropWhile_cons_false isWsChar c (l ++ ['\n']) hc
  have h2 : (X ++ ['\n']).reverse.dropWhile isWsChar = X.reverse := by
    rw [List.reverse_append]
    simp only [List.reverse_cons, List.reverse_nil, List.nil_append, List.cons_append,
      List.nil_append]
    show List.dropWhile isWsChar ('\n' :: X.reverse) = X.reverse
    rw [List.dropWhile]
    have : isWsChar '\n' = true := rfl
    rw [this]
    rw [hrev]
    exact dropWhile_cons_false isWsChar d m hd
  simp only [trimChars, h1, h2, List.reverse_reverse]

/-- A normalized heading line: `k` markers, one space, the title. -/
def headingLine (k : Nat) (t : Str) : Str := List.replicate k '#' ++ ' ' :: t

/-- Heading lines separated by exactly one blank line
(`join` with `"\n\n"`). -/
def blankJoin : List Str → Str
  | [] => []
  | [s] => s
  | s :: rest => s ++ '\n' :: '\n' :: blankJoin rest

/-- The line sequence a blank-line-separated document splits into. -/
def sepList : List Str → List Str
  | [] => []
  | [h] => [h]
  | h :: rest => h :: [] :: sepList rest

/-- Leading marker characters of a normalized heading line. -/
theorem takeWhile_hashes (t : Str) :
    ∀ k, (List.replicate k '#' ++ ' ' :: t).takeWhile (fun ch => ch == '#') =
      List.replicate k '#' := by
  intro k
  induction k with
  | zero => simp [List.takeWhile]
  | succ n ih => simpa [List.replicate_succ, List.takeWhile] using ih

/-- The heading regex accepts every normalized heading line, capturing
the marker count and the exact title. -/
theorem headingMatch_wf (k : Nat) (t : Str) (hk1 : 1 ≤ k) (hk6 : k ≤ 6)
    (ht : t ≠ []) (htr : trimChars t = t) (hnn : '\n' ∉ t) (hnr : '\r' ∉ t) :
    headingMatch (headingLine k t) = some (k, t) := by
  obtain ⟨c, ts, rfl⟩ : ∃ c ts, t = c :: ts := by
    cases t with
    | nil => exact absurd rfl ht
    | cons c ts => exact ⟨c, ts, rfl⟩
  have hheadnw : isWsChar c = false :=
    head_of_dropWhile_eq_self isWsChar (c :: ts) (trim_fixed_both (c :: ts) htr).1 c ts rfl
  simp only [headingMatch, headingLine, takeWhile_hashes, List.length_replicate]
  rw [if_pos ⟨hk1, hk6⟩]
  have hdrop : (List.replicate k '#' ++ ' ' :: c :: ts).drop k = ' ' :: c :: ts := by
    have := List.drop_left (List.replicate k '#') (' ' :: c :: ts)
    rwa [List.length_replicate] at this
  rw [hdrop]
  have htake : (' ' :: c :: ts).takeWhile isWsChar = [' '] := by
    simp only [List.takeWhile]
    have hsp : isWsChar ' ' = true := rfl
    rw [hsp, hheadnw]
  rw [htake]
  simp only [List.length_cons, List.length_nil]
  rw [if_neg (by omega)]
  simp only [List.drop_succ_cons, List.drop_zero]
  rw [if_pos (by simp)]
  rw [if_neg (by rintro (h | h) <;> [exact hnn h; exact hnr h])]

/-- `splitNl` never returns the empty list. -/
theorem splitNl_ne_nil : ∀ s : Str, splitNl s ≠ [] := by
  intro s
  induction s with
  | nil => simp [splitNl]
  | cons a s' ih =>
    simp only [splitNl]
    cases h : splitNl s' with
    | nil => exact absurd h ih
    | cons hd tl =>
      show (if a = '\n' then [] :: hd :: tl else (a :: hd) :: tl) ≠ []
      split <;> simp

/-- Splitting after a newline. -/
theorem splitNl_cons_nl (s : Str) : splitNl ('\n' :: s) = [] :: splitNl s := by
  simp only [splitNl]
  cases h : splitNl s with
  | nil => exact absurd h (splitNl_ne_nil s)
  | cons hd tl => simp

/-- Splitting a newline-free prefix glues it onto the first line of the
remainder. -/
theorem splitNl_append_no_nl :
    ∀ (h : Str), '\n' ∉ h → ∀ (s : Str) (hd : Str) (tl : List Str),
      splitNl s = hd :: tl → splitNl (h ++ s) = (h ++ hd) :: tl := by
  intro h
  induction h with
  | nil => intro _ s hd tl hs; simpa using hs
  | cons a h' ih =>
    intro hna s hd tl hs
    have hane : ¬ a = '\n' := fun hh => hna (by simp [hh])
    have hh' : '\n' ∉ h' := fun hm => hna (by simp [hm])
    simp only [List.cons_append, splitNl]
    rw [show List.append h' s = h' ++ s from rfl]
    rw [ih hh' s hd tl hs]
    show (if a = '\n' then [] :: (h' ++ hd) :: tl else (a :: (h' ++ hd)) :: tl) =
      (a :: (h' ++ hd)) :: tl
    rw [if_neg hane]

/-- A newline-free string is a single line. -/
theorem splitNl_no_nl (h : Str) (hna : '\n' ∉ h) : splitNl h = [h] := by
  have := splitNl_append_no_nl h hna [] [] [] rfl
  simpa using this

/-- Splitting a blank-line-separated document of newline-free lines
yields the lines interleaved with empty lines. -/
theorem splitNl_blankJoin :
    ∀ hs : List Str, hs ≠ [] → (∀ h ∈ hs, '\n' ∉ h) →
      splitNl (blankJoin hs) = sepList hs := by
  intro hs
  induction hs with
  | nil => intro h _; exact absurd rfl h
  | cons h rest ih =>
    intro _ hno
    cases rest with
    | nil =>
      simp only [blankJoin, sepList]
      exact splitNl_no_nl h (hno h (by simp))
    | cons h2 rest' =>
      have hrec : splitNl (blankJoin (h2 :: rest')) = sepList (h2 :: rest') :=
        ih (by simp) (fun x hx => hno x (by simp [hx]))
      have hsep2 : ∃ hd tl, sepList (h2 :: rest') = hd :: tl := by
        cases rest' with
        | nil => exact ⟨h2, [], rfl⟩
        | cons a b => exact ⟨h2, [] :: sepList (a :: b), rfl⟩
      obtain ⟨hd, tl, hsepeq⟩ := hsep2
      show splitNl (h ++ '\n' :: '\n' :: blankJoin (h2 :: rest')) = sepList (h :: h2 :: rest')
      have hsplit2 : splitNl ('\n' :: '\n' :: blankJoin (h2 :: rest')) =
          [] :: [] :: (hd :: tl) := by
        rw [splitNl_cons_nl, splitNl_cons_nl, hrec, hsepeq]
      rw [splitNl_append_no_nl h (hno h (by simp)) _ _ _ hsplit2]
      show (h ++ []) :: [] :: hd :: tl = sepList (h :: h2 :: rest')
      rw [List.append_nil]
      show h :: [] :: hd :: tl = h :: [] :: sepList (h2 :: rest')
      rw [hsepeq]

/-- Preorder `(level, title)` contribution of one node. -/
def nodePairs (n : Node) : List (Nat × Str) := (n.level, n.title) :: n.children.pairs

/-- `pairs` of a cons in terms of the head node. -/
theorem Forest.pairs_cons (n : Node) (rest : Forest) :
    (Forest.cons n rest).pairs = nodePairs n ++ rest.pairs := by
  cases n with
  | mk c cs => simp [Forest.pairs, nodePairs, Node.level, Node.title, Node.children, Node.core]

/-- `pairs` distributes over forest append. -/
theorem Forest.pairs_append : ∀ f g : Forest, (f.append g).pairs = f.pairs ++ g.pairs := by
  intro f g
  induction f using Forest.inductionOn with
  | hnil => rfl
  | hcons c cs rest _ ihrest =>
    simp only [Forest.append, Forest.pairs, ihrest, List.cons_append, List.append_assoc]

/-- No node of the forest carries a description. -/
def noDescB : Forest → Bool
  | .nil => true
  | .cons (.mk c cs) rest => (c.description == none) && noDescB cs && noDescB rest

/-- `noDescB` distributes over forest append. -/
theorem noDescB_append : ∀ f g : Forest, noDescB (f.append g) = (noDescB f && noDescB g) := by
  intro f g
  induction f using Forest.inductionOn with
  | hnil => simp [Forest.append, noDescB]
  | hcons c cs rest _ ihrest =>
    simp only [Forest.append, noDescB, ihrest]
    cases c.description == none <;> cases noDescB cs <;> cases noDescB rest <;> simp

/-- No stacked node carries a description. -/
def stackNoDescB : List Node → Bool
  | [] => true
  | top :: rest => (top.description == none) && noDescB top.children && stackNoDescB rest

/-- The `(level, title)` pairs the stack will eventually contribute to
the forest, bottom entry first. -/
def stackPairs : List Node → List (Nat × Str)
  | [] => []
  | top :: rest => stackPairs rest ++ nodePairs top

/-- With fuel 0, the pop loop drains the whole stack. -/
theorem popStackGo_zero_stack :
    ∀ (rest : List Node) (top : Node) (roots : Forest),
      (popStackGo 0 roots top rest).2 = [] := by
  intro rest
  induction rest with
  | nil => intro top roots; simp [popStackGo]
  | cons parent rest' ih =>
    intro top roots
    simp only [popStackGo]
    rw [if_pos (Nat.zero_le _)]
    exact ih (appendChild parent top) roots

/-- The pop loop moves `(level, title)` pairs between the stack and the
roots without loss or reordering, and preserves description-freeness. -/
theorem popStackGo_pairs (lvl : Nat) :
    ∀ (rest : List Node) (top : Node) (roots : Forest),
      ((popStackGo lvl roots top rest).1.pairs ++ stackPairs (popStackGo lvl roots top rest).2 =
        roots.pairs ++ stackPairs (top :: rest)) ∧
      (noDescB roots = true → stackNoDescB (top :: rest) = true →
        noDescB (popStackGo lvl roots top rest).1 = true ∧
          stackNoDescB (popStackGo lvl roots top rest).2 = true) := by
  intro rest
  induction rest with
  | nil =>
    intro top roots
    simp only [popStackGo]
    by_cases hl : lvl ≤ top.level
    · rw [if_pos hl]
      constructor
      · simp only [Forest.pairs_append, Forest.pairs_cons, stackPairs]
        simp [Forest.pairs, List.append_assoc]
      · intro hroots hstk
        simp only [stackNoDescB, Bool.and_eq_true] at hstk
        refine ⟨?_, rfl⟩
        rw [noDescB_append, Bool.and_eq_true]
        refine ⟨hroots, ?_⟩
        cases top with
        | mk c cs =>
          simp only [noDescB, Bool.and_eq_true]
          exact ⟨⟨by simpa [Node.description, Node.core] using hstk.1.1,
            by simpa [Node.children, Node.core] using hstk.1.2⟩, trivial⟩
    · rw [if_neg hl]
      exact ⟨rfl, fun h1 h2 => ⟨h1, h2⟩⟩
  | cons parent rest' ih =>
    intro top roots
    simp only [popStackGo]
    by_cases hl : lvl ≤ top.level
    · rw [if_pos hl]
      obtain ⟨ihp, ihd⟩ := ih (appendChild parent top) roots
      constructor
      · rw [ihp]
        have : stackPairs (appendChild parent top :: rest') =
            stackPairs (top :: parent :: rest') := by
          cases parent with
          | mk pc pcs =>
            simp only [stackPairs, appendChild, nodePairs, Node.level, Node.title,
              Node.children, Node.core, Forest.pairs_append, Forest.pairs_cons]
            simp [Forest.pairs, List.append_assoc]
        rw [this]
      · intro hroots hstk
        refine ihd hroots ?_
        simp only [stackNoDescB, Bool.and_eq_true] at hstk ⊢
        obtain ⟨⟨htd, htc⟩, ⟨⟨hpd, hpc⟩, hrest⟩⟩ := hstk
        cases parent with
        | mk pc pcs =>
          refine ⟨⟨?_, ?_⟩, hrest⟩
          · simpa [appendChild, Node.description, Node.core] using hpd
          · simp only [appendChild, Node.children, Node.core]
            rw [noDescB_append, Bool.and_eq_true]
            refine ⟨by simpa [Node.children, Node.core] using hpc, ?_⟩
            cases top with
            | mk tc tcs =>
              simp only [noDescB, Bool.and_eq_true]
              exact ⟨⟨by simpa [Node.description, Node.core] using htd,
                by simpa [Node.children, Node.core] using htc⟩, trivial⟩
    · rw [if_neg hl]
      refine ⟨rfl, fun h1 h2 => ⟨h1, h2⟩⟩

/-- The invariant of the heading-only parse: the processed `(level,
title)` pairs are exactly `E`, no accumulated node carries a
description, and no description lines are pending. -/
def HeadingParseInv (E : List (Nat × Str)) (st : Forest × List Node × List Str × Nat) : Prop :=
  st.1.pairs ++ stackPairs st.2.1 = E ∧ noDescB st.1 = true ∧
    stackNoDescB st.2.1 = true ∧ st.2.2.1 = []

/-- With no pending description lines, the flush is the identity. -/
theorem flushDesc_nil (stack : List Node) : flushDesc stack [] = stack := by
  cases stack with
  | nil => rfl
  | cons top rest => simp [flushDesc]

/-- A blank line leaves the parser state untouched. -/
theorem parseLine_blank (st : Forest × List Node × List Str × Nat) :
    parseLine st [] = st := by
  obtain ⟨roots, stack, desc, nid⟩ := st
  simp [parseLine, headingMatch, trimChars]

/-- Processing a heading line under the heading-only invariant appends
its `(level, trimmed title)` pair. -/
theorem parseLine_heading_inv (E : List (Nat × Str))
    (st : Forest × List Node × List Str × Nat) (line : Str) (k : Nat) (t : Str)
    (hm : headingMatch line = some (k, t)) (htr : trimChars t = t)
    (hinv : HeadingParseInv E st) :
    HeadingParseInv (E ++ [(k, t)]) (parseLine st line) := by
  obtain ⟨roots, stack, desc, nid⟩ := st
  obtain ⟨hpairs, hnd, hsnd, hdesc⟩ := hinv
  simp only at hpairs hnd hsnd hdesc
  subst hdesc
  simp only [parseLine, hm, flushDesc_nil]
  cases stack with
  | nil =>
    simp only [popStack]
    refine ⟨?_, hnd, ?_, rfl⟩
    · simp only [stackPairs, nodePairs, Node.level, Node.title, Node.children, Node.core,
        Forest.pairs, List.head?]
      simp only [stackPairs, List.append_nil] at hpairs
      simp [hpairs, htr, Forest.pairs]
    · simp [stackNoDescB, Node.description, Node.children, Node.core, noDescB]
  | cons top rest =>
    obtain ⟨hp, hdpres⟩ := popStackGo_pairs k rest top roots
    have hd := hdpres hnd hsnd
    simp only [popStack]
    refine ⟨?_, hd.1, ?_, rfl⟩
    · simp only [stackPairs, nodePairs, Node.level, Node.title, Node.children, Node.core,
        Forest.pairs, List.append_nil]
      rw [← List.append_assoc, hp, hpairs, htr]
    · simp only [stackNoDescB, Bool.and_eq_true]
      refine ⟨⟨?_, ?_⟩, hd.2⟩
      · simp [Node.description, Node.core]
      · simp [Node.children, Node.core, noDescB]

/-- Folding the parser over a blank-line-separated list of normalized
heading lines appends exactly their `(level, title)` pairs. -/
theorem fold_sepList :
    ∀ es : List (Nat × Str),
      (∀ e ∈ es, 1 ≤ e.1 ∧ e.1 ≤ 6 ∧ e.2 ≠ [] ∧ trimChars e.2 = e.2 ∧
        '\n' ∉ e.2 ∧ '\r' ∉ e.2) →
      ∀ (E : List (Nat × Str)) (st : Forest × List Node × List Str × Nat),
        HeadingParseInv E st →
        HeadingParseInv (E ++ es)
          ((sepList (es.map (fun e => headingLine e.1 e.2))).foldl parseLine st)
  | [], _, E, st, hinv => by simpa [sepList] using hinv
  | [e], hwf, E, st, hinv => by
    obtain ⟨h1, h2, h3, h4, h5, h6⟩ := hwf e (by simp)
    have hm := headingMatch_wf e.1 e.2 h1 h2 h3 h4 h5 h6
    simpa [sepList] using
      parseLine_heading_inv E st (headingLine e.1 e.2) e.1 e.2 hm h4 hinv
  | e :: e2 :: rest, hwf, E, st, hinv => by
    obtain ⟨h1, h2, h3, h4, h5, h6⟩ := hwf e (by simp)
    have hm := headingMatch_wf e.1 e.2 h1 h2 h3 h4 h5 h6
    have hstep := parseLine_heading_inv E st (headingLine e.1 e.2) e.1 e.2 hm h4 hinv
    have hrec := fold_sepList (e2 :: rest) (fun x hx => hwf x (by simp [hx]))
      (E ++ [e]) (parseLine st (headingLine e.1 e.2)) hstep
    simp only [List.map_cons, sepList, List.foldl_cons, parseLine_blank]
    simpa [List.append_assoc] using hrec

/-- The serializer's line list for a heading-only pair list. -/
def linesOf : List (Nat × Str) → List Str
  | [] => []
  | e :: rest => headingLine e.1 e.2 :: [] :: linesOf rest

/-- `linesOf` distributes over append. -/
theorem linesOf_append : ∀ A B : List (Nat × Str), linesOf (A ++ B) = linesOf A ++ linesOf B := by
  intro A B
  induction A with
  | nil => rfl
  | cons e A' ih => simp [linesOf, ih]

/-- `linesOf` of a non-empty list is non-empty. -/
theorem linesOf_ne_nil (es : List (Nat × Str)) (h : es ≠ []) : linesOf es ≠ [] := by
  cases es with
  | nil => exact absurd rfl h
  | cons e rest => simp [linesOf]

/-- A description-free forest serializes to exactly its preorder
heading/blank-line pattern. -/
theorem serializeLines_noDesc :
    ∀ f : Forest, noDescB f = true → serializeLines f = linesOf f.pairs := by
  intro f
  induction f using Forest.inductionOn with
  | hnil => intro _; rfl
  | hcons c cs rest ihcs ihrest =>
    intro h
    simp only [noDescB, Bool.and_eq_true, beq_iff_eq] at h
    obtain ⟨⟨hd, hcs⟩, hrest⟩ := h
    simp only [serializeLines, hd, Forest.pairs, linesOf, ihcs hcs, ihrest hrest,
      linesOf_append, headingLine]
    simp

/-- `joinNl` on a list with a non-empty tail. -/
theorem joinNl_cons_ne (s : Str) (rest : List Str) (h : rest ≠ []) :
    joinNl (s :: rest) = s ++ '\n' :: joinNl rest := by
  cases rest with
  | nil => exact absurd rfl h
  | cons a b => rfl

/-- Joining the serializer's heading/blank pattern gives the blank-line
separated document plus one trailing newline. -/
theorem joinNl_linesOf :
    ∀ es : List (Nat × Str), es ≠ [] →
      joinNl (linesOf es) =
        blankJoin (es.map (fun e => headingLine e.1 e.2)) ++ ['\n']
  | [], h => absurd rfl h
  | [e], _ => by simp [linesOf, joinNl, blankJoin]
  | e :: e2 :: rest, _ => by
    have hne : linesOf (e2 :: rest) ≠ [] := linesOf_ne_nil _ (by simp)
    have hrec := joinNl_linesOf (e2 :: rest) (by simp)
    show joinNl (headingLine e.1 e.2 :: [] :: linesOf (e2 :: rest)) = _
    rw [joinNl_cons_ne _ _ (by simp), joinNl_cons_ne _ _ hne, hrec]
    simp [blankJoin, List.map_cons]

/-- A normalized heading line never contains a newline. -/
theorem headingLine_no_nl (k : Nat) (t : Str) (h : '\n' ∉ t) :
    '\n' ∉ headingLine k t := by
  simp [headingLine, List.mem_append, List.mem_replicate, h]

/-- A blank-line-separated heading document starts with a marker. -/
theorem blankJoin_head :
    ∀ es : List (Nat × Str), es ≠ [] → (∀ e ∈ es, 1 ≤ e.1) →
      ∃ l, blankJoin (es.map (fun e => headingLine e.1 e.2)) = '#' :: l
  | [], h, _ => absurd rfl h
  | [e], _, hk => by
    obtain ⟨m, hm⟩ : ∃ m, e.1 = m + 1 := by
      have := hk e (by simp)
      exact ⟨e.1 - 1, by omega⟩
    exact ⟨List.replicate m '#' ++ ' ' :: e.2, by
      simp [blankJoin, headingLine, hm, List.replicate_succ]⟩
  | e :: e2 :: rest, _, hk => by
    obtain ⟨m, hm⟩ : ∃ m, e.1 = m + 1 := by
      have := hk e (by simp)
      exact ⟨e.1 - 1, by omega⟩
    refine ⟨(List.replicate m '#' ++ ' ' :: e.2) ++
      '\n' :: '\n' :: blankJoin ((e2 :: rest).map (fun e => headingLine e.1 e.2)), ?_⟩
    simp [blankJoin, headingLine, hm, List.replicate_succ, List.map_cons]

/-- A blank-line-separated document of trimmed-title headings ends in a
non-whitespace character. -/
theorem blankJoin_revhead :
    ∀ es : List (Nat × Str), es ≠ [] →
      (∀ e ∈ es, e.2 ≠ [] ∧ trimChars e.2 = e.2) →
      ∃ c l, (blankJoin (es.map (fun e => headingLine e.1 e.2))).reverse = c :: l ∧
        isWsChar c = false
  | [], h, _ => absurd rfl h
  | [e], _, hk => by
    obtain ⟨hne, htr⟩ := hk e (by simp)
    have hdw := (trim_fixed_both e.2 htr).2
    obtain ⟨c, l', hrev⟩ : ∃ c l', e.2.reverse = c :: l' := by
      cases hr : e.2.reverse with
      | nil => exact absurd (by simpa using congrArg List.reverse hr) hne
      | cons c l' => exact ⟨c, l', rfl⟩
    have hcw : isWsChar c = false :=
      head_of_dropWhile_eq_self isWsChar e.2.reverse hdw c l' hrev
    refine ⟨c, l' ++ ' ' :: (List.replicate e.1 '#').reverse, ?_, hcw⟩
    simp [blankJoin, headingLine, List.reverse_append, hrev]
  | e :: e2 :: rest, _, hk => by
    obtain ⟨c, l, hrev, hcw⟩ := blankJoin_revhead (e2 :: rest) (by simp)
      (fun x hx => hk x (by simp [hx]))
    refine ⟨c, l ++ '\n' :: '\n' :: (headingLine e.1 e.2).reverse, ?_, hcw⟩
    show (headingLine e.1 e.2 ++
      '\n' :: '\n' :: blankJoin ((e2 :: rest).map (fun e => headingLine e.1 e.2))).reverse = _
    rw [List.reverse_append]
    simp only [List.map_cons] at hrev
    simp [hrev]

/-- C6 (counterexample).  The claim says `serialize(parse(text))` reproduces
`text` up to leading/trailing whitespace for every well-formed
heading-only document.  The heading-only document `"# A\n## B"` (single
newline between headings) round-trips to `"# A\n\n## B"` — the
serializer always emits a blank line after each heading — so the two
differ in the interior, not merely in leading/trailing whitespace:
their trims differ.
-/
theorem roundtrip_fails_single_newline :
    serialize (parse ("# A\n## B".toList)) = "# A\n\n## B".toList ∧
      trimChars (serialize (parse ("# A\n## B".toList))) ≠ trimChars ("# A\n## B".toList) := by
  exact ⟨rfl, by decide⟩

/-- C6 (amended).  `serialize(parse(text))` reproduces `text` exactly for
every well-formed heading-only document in the serializer's own
normal form: each heading is `'#' * k + ' ' + title` with `1 ≤ k ≤ 6`
and a non-empty trimmed title (free of newline and carriage-return),
and consecutive headings are separated by exactly one blank line.
(The counterexample forces the blank-line separation: the serializer
always emits one blank line between headings, so documents with other
interior spacing are normalized, not reproduced.)
-/
theorem roundtrip_normalized (es : List (Nat × Str)) (hne : es ≠ [])
    (hwf : ∀ e ∈ es, 1 ≤ e.1 ∧ e.1 ≤ 6 ∧ e.2 ≠ [] ∧ trimChars e.2 = e.2 ∧
      '\n' ∉ e.2 ∧ '\r' ∉ e.2) :
    serialize (parse (blankJoin (es.map (fun e => headingLine e.1 e.2)))) =
      blankJoin (es.map (fun e => headingLine e.1 e.2)) := by
  have hLne : es.map (fun e => headingLine e.1 e.2) ≠ [] := by
    cases es with
    | nil => exact absurd rfl hne
    | cons a b => simp
  have hnl : ∀ h ∈ es.map (fun e => headingLine e.1 e.2), '\n' ∉ h := by
    intro h hh
    rcases List.mem_map.mp hh with ⟨e, he, rfl⟩
    exact headingLine_no_nl e.1 e.2 (hwf e he).2.2.2.2.1
  have hsplit := splitNl_blankJoin _ hLne hnl
  have hfold := fold_sepList es hwf [] (Forest.nil, [], [], 1) ⟨rfl, rfl, rfl, rfl⟩
  rcases hst : (sepList (es.map fun e => headingLine e.1 e.2)).foldl parseLine
      (Forest.nil, [], ([] : List Str), 1) with ⟨roots, stack, desc, nid⟩
  rw [hst] at hfold
  obtain ⟨hpairs, hnd, hsnd, hdesc⟩ := hfold
  simp only at hpairs hnd hsnd hdesc
  subst hdesc
  have hparse : parse (blankJoin (es.map (fun e => headingLine e.1 e.2))) =
      (popStack roots stack 0).1 := by
    simp only [parse, hsplit, hst, flushDesc_nil]
  have hfinal : (popStack roots stack 0).1.pairs = es ∧
      noDescB (popStack roots stack 0).1 = true := by
    cases stack with
    | nil =>
      simp only [popStack]
      simp only [stackPairs, List.append_nil, List.nil_append] at hpairs
      exact ⟨hpairs, hnd⟩
    | cons top rest =>
      have hzero := popStackGo_zero_stack rest top roots
      obtain ⟨hp, hdp⟩ := popStackGo_pairs 0 rest top roots
      have hd := hdp hnd hsnd
      rw [hzero] at hp
      simp only [stackPairs, List.append_nil] at hp
      simp only [popStack]
      rw [hp]
      simp only [List.nil_append] at hpairs
      exact ⟨hpairs, hd.1⟩
  rw [hparse]
  have hsl := serializeLines_noDesc _ hfinal.2
  rw [hfinal.1] at hsl
  have hjoin := joinNl_linesOf es hne
  obtain ⟨l, hhead⟩ := blankJoin_head es hne (fun e he => (hwf e he).1)
  obtain ⟨c, lr, hrev, hcw⟩ := blankJoin_revhead es hne
    (fun e he => ⟨(hwf e he).2.2.1, (hwf e he).2.2.2.1⟩)
  simp only [serialize, hsl, hjoin]
  exact trim_append_newline _ '#' c l lr hhead hrev rfl hcw

/-- C6 (amended, witness).  The round trip applied to the two-heading
document `"# A\n\n## B"`.
-/
theorem roundtrip_normalized_witness :
    serialize (parse (blankJoin ([(1, ['A']), (2, ['B'])].map
        (fun e => headingLine e.1 e.2)))) =
      blankJoin ([(1, ['A']), (2, ['B'])].map (fun e => headingLine e.1 e.2)) :=
  roundtrip_normalized [(1, ['A']), (2, ['B'])] (by decide) (by decide)


